import Mathlib

/-!
# A verification development for the CountESS pipeline core

This file gives a shallow embedding of `countess/core/pipeline.py`
(classes `PipelineNode` and `PipelineGraph`) and settles the stated
properties of the specification against it.

Modelling conventions:
* Nodes are identified by natural numbers (object identity in Python).
* Python `set` fields (`parent_nodes`, `child_nodes`) are modelled as
  `List Nat` values; iteration over a set is determinised to list order,
  which none of the proved properties depend on.
* The external processing unit (`BasePlugin`) is kept abstract: its batch
  `execute` is an oracle function supplied as a parameter, receiving the
  same inputs the Python code passes it (the node id, the name-keyed
  mapping of parent results, and the optional row limit).
* A node's cached `result` is `Option (List Nat)`: `none` is Python
  `None`, `some l` a produced sequence.  The extra `frozen` flag records
  whether the cached value was materialised into a list (Python
  `list(...)`): an unmaterialised generator is always truthy in Python
  regardless of how many items it would yield, while a materialised empty
  list is falsy; `resultTruthy` reproduces exactly that.
* Recursions that Python runs on the call stack (and that terminate only
  on well-formed graphs) are given explicit fuel; the theorems show the
  canonical fuel used by the wrappers suffices under the corresponding
  well-formedness hypotheses.
-/

namespace CountESS

/-- An exact unnormalised fraction, standing in for the Python floats of
the layout engine (every coordinate tidy computes is a small rational;
none of the proved properties depends on float rounding).  Denominators
are positive in every value the code builds. -/
structure Frac where
  num : Int
  den : Int
  deriving DecidableEq

/-- Embedding of integers. -/
def Frac.ofInt (k : Int) : Frac := ⟨k, 1⟩

/-- The constant `0.5`. -/
def Frac.half : Frac := ⟨1, 2⟩

/-- Exact addition (no normalisation). -/
def Frac.add (a b : Frac) : Frac := ⟨a.num * b.den + b.num * a.den, a.den * b.den⟩

/-- Exact division. -/
def Frac.div (a b : Frac) : Frac := ⟨a.num * b.den, a.den * b.num⟩

/-- Strict order by cross-multiplication (valid for the
positive-denominator values arising here). -/
def Frac.blt (a b : Frac) : Bool := a.num * b.den < b.num * a.den

/-- Value equality by cross-multiplication. -/
def fracEq (a b : Frac) : Prop := a.num * b.den = b.num * a.den

/-- State of a `PipelineGraph` together with the per-node state of its
`PipelineNode`s (fields of class `PipelineNode` become functions from the
node id).  `plugin n = true` models `node.plugin is not None`. -/
structure PGraph where
  nodes : List Nat
  parentsOf : Nat → List Nat
  childrenOf : Nat → List Nat
  is_dirty : Nat → Bool
  plugin : Nat → Bool
  result : Nat → Option (List Nat)
  frozen : Nat → Bool
  pos : Nat → Option (Frac × Frac)

/-- The oracle for the external unit's batch `execute(name, sources,
logger, row_limit)`: node id, parent results keyed by parent id, row
limit. -/
def PExec : Type := Nat → List (Nat × Option (List Nat)) → Option Nat → List Nat

/-- Python truthiness of `node.result`: `None` is falsy, a materialised
(frozen) empty list is falsy, everything else is truthy (in particular an
unmaterialised lazy sequence is truthy no matter what it would yield). -/
def resultTruthy (g : PGraph) (n : Nat) : Bool :=
  match g.result n with
  | none => false
  | some l => !g.frozen n || !l.isEmpty

/-- Embeds `PipelineNode.execute` (pipeline.py lines 91-112).  Returns the new
graph state and whether the unit's batch `execute` was invoked.
The Python body: if the node has no plugin, set `result = []` and return
(without touching `is_dirty`); else if a row limit is requested and the
cached result is truthy and the node is clean, return unchanged; else
rebuild `sources` from the parents' results, invoke the plugin, freeze
the output into a list when a row limit is set or the node does not have
exactly one child, and clear `is_dirty`. -/
def nodeExecute (px : PExec) (g : PGraph) (n : Nat) (row_limit : Option Nat) :
    PGraph × Bool :=
  if !g.plugin n then
    ({ g with result := Function.update g.result n (some []),
              frozen := Function.update g.frozen n true }, false)
  else if row_limit.isSome && resultTruthy g n && !g.is_dirty n then
    (g, false)
  else
    let sources := (g.parentsOf n).map (fun p => (p, g.result p))
    let r := px n sources row_limit
    ({ g with result := Function.update g.result n (some r),
              frozen := Function.update g.frozen n
                (row_limit.isSome || (g.childrenOf n).length != 1),
              is_dirty := Function.update g.is_dirty n false }, true)

/-- Embeds `PipelineNode.detatch` (pipeline.py lines 163-167): discard this node
from each parent's child set and from each child's parent set.  The
node's own `parent_nodes` / `child_nodes` are not modified by the Python
code. -/
def detatch (g : PGraph) (n : Nat) : PGraph :=
  { g with
    childrenOf := fun m =>
      if m ∈ g.parentsOf n then (g.childrenOf m).erase n else g.childrenOf m,
    parentsOf := fun m =>
      if m ∈ g.childrenOf n then (g.parentsOf m).erase n else g.parentsOf m }

/-- Embeds `PipelineGraph.del_node` (pipeline.py lines 191-193): `node.detatch()`
then `self.nodes.remove(node)` (removal of the first occurrence). -/
def delNode (g : PGraph) (n : Nat) : PGraph :=
  let g' := detatch g n
  { g' with nodes := g'.nodes.erase n }

/-! ## Concrete states used to exercise `execute` and `del_node` -/
/-- A single clean node holding a materialised cached result `[5]`. -/
def gClean : PGraph where
  nodes := [0]
  parentsOf := fun _ => []
  childrenOf := fun _ => []
  is_dirty := fun _ => false
  plugin := fun _ => true
  result := fun _ => some [5]
  frozen := fun _ => true
  pos := fun _ => none

/-- A single clean node holding a materialised cached *empty* result. -/
def gCleanEmpty : PGraph where
  nodes := [0]
  parentsOf := fun _ => []
  childrenOf := fun _ => []
  is_dirty := fun _ => false
  plugin := fun _ => true
  result := fun _ => some []
  frozen := fun _ => true
  pos := fun _ => none

/-- A unit whose batch `execute` always produces `[6]`. -/
def pxSix : PExec := fun _ _ _ => [6]

/-- Two nodes `0 → 1`. -/
def gEdge : PGraph where
  nodes := [0, 1]
  parentsOf := fun m => if m = 1 then [0] else []
  childrenOf := fun m => if m = 0 then [1] else []
  is_dirty := fun _ => true
  plugin := fun _ => true
  result := fun _ => none
  frozen := fun _ => false
  pos := fun _ => none

/-! ## Claim C1 — the streaming worker protocol (`run_thread`) -/
/-- A mailbox payload: a real data item or the reserved
`FINISHED_SENTINEL`. -/
inductive QMsg where
  | data (x : Nat)
  | fin
  deriving DecidableEq

/-- Observable behaviour of one worker: calls into the streaming unit and
items handed to `queue_to_child_nodes`, in program order. -/
inductive SEvent where
  | prepareCall (srcs : List String)
  | processCall (x : Nat) (src : String)
  | finishedCall (src : String)
  | finalizeCall
  | emit (m : QMsg)
  deriving DecidableEq

/-- The streaming half of the unit contract, as an oracle: outputs of
`process`, `finished` and `finalize`. -/
structure SPlugin where
  processOut : Nat → String → List Nat
  finishedOut : String → List Nat
  finalizeOut : List Nat

/-- Data outputs wrapped as emission events. -/
def emitsOf (l : List Nat) : List SEvent := l.map (fun x => SEvent.emit (QMsg.data x))

/-- The `while sources:` loop of `run_thread` (pipeline.py lines 77-85)
over a fixed arrival order `msgs` of the node's mailbox.  `none` models
the run not completing: blocking forever on an exhausted mailbox, or the
`assert source in sources` firing. -/
def runLoop (pl : SPlugin) : List (String × QMsg) → List String → Option (List SEvent)
  | _, [] => some []
  | [], _ :: _ => none
  | (src, m) :: rest, s :: ss =>
      if src ∈ s :: ss then
        match m with
        | .fin =>
            (runLoop pl rest ((s :: ss).erase src)).map
              (fun evs => SEvent.finishedCall src :: (emitsOf (pl.finishedOut src) ++ evs))
        | .data x =>
            (runLoop pl rest (s :: ss)).map
              (fun evs => SEvent.processCall x src :: (emitsOf (pl.processOut x src) ++ evs))
      else none

/-- Embeds `PipelineNode.run_thread` (pipeline.py lines 63-89).  `sources` is the
set of parent names (`{pn.name for pn in self.parent_nodes}`), `batchOut`
the batch `execute` output used on the no-parent branch, `msgs` the order
in which the mailbox delivers.  Ends by emitting the finished marker. -/
def runThread (pl : SPlugin) (batchOut : List Nat) (sources : List String)
    (msgs : List (String × QMsg)) : Option (List SEvent) :=
  if sources.isEmpty then
    some (emitsOf batchOut ++ [SEvent.emit QMsg.fin])
  else
    (runLoop pl msgs sources).map (fun evs =>
      SEvent.prepareCall sources :: evs ++
        SEvent.finalizeCall :: (emitsOf pl.finalizeOut ++ [SEvent.emit QMsg.fin]))

/-- The items a trace hands to `queue_to_child_nodes`, in order. -/
def emitted : List SEvent → List QMsg
  | [] => []
  | SEvent.emit m :: evs => m :: emitted evs
  | SEvent.prepareCall _ :: evs => emitted evs
  | SEvent.processCall _ _ :: evs => emitted evs
  | SEvent.finishedCall _ :: evs => emitted evs
  | SEvent.finalizeCall :: evs => emitted evs

/-- Embeds `PipelineNode.queue_to_child_nodes` (pipeline.py lines 57-61) applied
to a list of items: each item, tagged with the sender's name, is appended
to every child's mailbox. -/
def queueToChildNodes (name : String) (children : List Nat)
    (mailbox : Nat → List (String × QMsg)) (items : List QMsg) :
    Nat → List (String × QMsg) :=
  fun c => if c ∈ children then mailbox c ++ items.map (fun m => (name, m))
           else mailbox c

/-- A concrete unit for the witness below. -/
def plW : SPlugin where
  processOut := fun x _ => [x + 1]
  finishedOut := fun _ => []
  finalizeOut := [9]

/-- The witness mailbox arrival order: one data item from `a`, then `b`
finishes, then `a` finishes. -/
def msgsW : List (String × QMsg) :=
  [("a", QMsg.data 1), ("b", QMsg.fin), ("a", QMsg.fin)]

/-- The trace `run_thread` produces on `msgsW`. -/
def evsW : List SEvent :=
  (SEvent.prepareCall ["a", "b"] ::
    [SEvent.processCall 1 "a", SEvent.emit (QMsg.data 2),
     SEvent.finishedCall "b", SEvent.finishedCall "a"]) ++
    SEvent.finalizeCall :: (emitsOf plW.finalizeOut ++ [SEvent.emit QMsg.fin])

/-! ## Claim C8 — configuration application (`load_config` / `set_parameter`) -/
/-- The recoverable errors `set_parameter` can signal: Python `KeyError`
(unknown key) and `ValueError` (invalid value). -/
inductive ParamError where
  | unknownKey
  | invalidValue
  deriving DecidableEq

/-- Modelled from the spec: the nested parameter store walked by
`BasePlugin.set_parameter` (plugins.py lines 109-113 walks
`self.parameters` along the dot-separated key path, raising `KeyError`
for a missing key); the per-parameter value validation lives in
`countess/core/parameters.py`, which is not under `src/`, so a leaf
carries an abstract validity predicate — per §4.1, `set_parameter` fails
with a recoverable error if the key is unknown or the value invalid. -/
inductive ParamNode where
  | leaf (value : String) (valid : String → Bool)
  | group (entries : List (String × ParamNode))

/-- Python `key.split(".")` on the dotted key path (split on the dot
character; the result always has at least one part). -/
def splitKey (s : String) : List String :=
  (s.toList.splitOn '.').map (fun cs => String.mk cs)

/-- Embeds `BasePlugin.set_parameter(key, value, base_dir)`: walk the split key
path through the parameter store; a missing key is `unknownKey`
(Python `KeyError`), a rejected value `invalidValue` (Python
`ValueError`). -/
def setParameter : List String → String → ParamNode → Except ParamError ParamNode
  | [], v, ParamNode.leaf _ valid =>
      if valid v then Except.ok (ParamNode.leaf v valid)
      else Except.error ParamError.invalidValue
  | [], _, ParamNode.group _ => Except.error ParamError.invalidValue
  | _ :: _, _, ParamNode.leaf _ _ => Except.error ParamError.unknownKey
  | k :: rest, v, ParamNode.group es =>
      match es.find? (fun e => e.1 == k) with
      | none => Except.error ParamError.unknownKey
      | some e =>
          (setParameter rest v e.2).map (fun sub =>
            ParamNode.group (es.map (fun e' => if e'.1 == k then (e'.1, sub) else e')))

/-- The `for key, val, base_dir in self.config:` loop of
`PipelineNode.load_config` (pipeline.py lines 117-121): each entry is
applied through `set_parameter`; `KeyError`/`ValueError` is caught and
demoted to a warning (returned as the key/value pair that was logged),
after which application continues with the remaining entries.  Returns
the final parameter store, the number of successfully applied entries
and the warnings. -/
def loadConfigEntries (params : ParamNode) :
    List (String × String × String) → ParamNode × Nat × List (String × String)
  | [] => (params, 0, [])
  | (key, v, _) :: rest =>
      match setParameter (splitKey key) v params with
      | Except.ok p' =>
          ((loadConfigEntries p' rest).1,
           (loadConfigEntries p' rest).2.1 + 1,
           (loadConfigEntries p' rest).2.2)
      | Except.error _ =>
          ((loadConfigEntries params rest).1,
           (loadConfigEntries params rest).2.1,
           (key, v) :: (loadConfigEntries params rest).2.2)

/-- A node's configuration cache plus its unit's parameter store. -/
structure NodeConfig where
  params : ParamNode
  config : Option (List (String × String × String))

/-- Embeds `PipelineNode.load_config` (pipeline.py lines 114-122): if the cached
config is truthy, apply every entry and clear the cache to `None`. -/
def load_config (st : NodeConfig) : NodeConfig × Nat × List (String × String) :=
  match st.config with
  | none => (st, 0, [])
  | some [] => (st, 0, [])
  | some entries =>
      let (p', n, ws) := loadConfigEntries st.params entries
      ({ params := p', config := none }, n, ws)

/-- A tiny parameter store for the witness below. -/
def pW : ParamNode := ParamNode.group [("a", ParamNode.leaf "x" (fun _ => true))]

/-! ## Topological traversal -/
/-- Node `a` is a parent of `b`. -/
def pEdge (g : PGraph) (a b : Nat) : Prop := a ∈ g.parentsOf b

/-- Every listed node's parents are listed. -/
def parentsClosed (g : PGraph) : Prop :=
  ∀ m ∈ g.nodes, ∀ p ∈ g.parentsOf m, p ∈ g.nodes

/-- The parent/child relation has no cycle. -/
def Acyclic (g : PGraph) : Prop := ∀ n, ¬ Relation.TransGen (pEdge g) n n

/-- One full `for node in self.nodes:` scan of `traverse_nodes`
(pipeline.py lines 200-203): yield (and mark found) every not-yet-found
node whose parents are all found; `found_nodes` grows during the scan.
Returns the yielded nodes and the grown found list. -/
def tnScan (g : PGraph) : List Nat → List Nat → List Nat × List Nat
  | [], found => ([], found)
  | n :: rest, found =>
      if n ∉ found ∧ ∀ p ∈ g.parentsOf n, p ∈ found then
        let r := tnScan g rest (found ++ [n])
        (n :: r.1, r.2)
      else tnScan g rest found

/-- The `while len(found_nodes) < len(self.nodes):` loop (line 199), with
fuel (the Python loop does not terminate on cyclic graphs). -/
def tnLoop (g : PGraph) : Nat → List Nat → List Nat
  | 0, _ => []
  | fuel + 1, found =>
      if found.length < g.nodes.length then
        let r := tnScan g g.nodes found
        r.1 ++ tnLoop g fuel r.2
      else []

/-- Embeds `PipelineGraph.traverse_nodes` (pipeline.py lines 195-203).  The
initial frontier (the parentless nodes) is emitted in node-list order —
Python iterates it as a set, whose order the proved properties do not
depend on. -/
def traverseNodes (g : PGraph) : List Nat :=
  let init := g.nodes.filter (fun n => (g.parentsOf n).isEmpty)
  init ++ tnLoop g g.nodes.length init

/-- The diamond `A→B, A→C, B→D, C→D` with `A,B,C,D = 0,1,2,3`; every
node starts at position `(0, 0)`. -/
def gDiamond : PGraph where
  nodes := [0, 1, 2, 3]
  parentsOf := fun m =>
    if m = 1 then [0] else if m = 2 then [0] else if m = 3 then [1, 2] else []
  childrenOf := fun m =>
    if m = 0 then [1, 2] else if m = 1 then [3] else if m = 2 then [3] else []
  is_dirty := fun _ => true
  plugin := fun _ => true
  result := fun _ => none
  frozen := fun _ => false
  pos := fun _ => some (⟨0, 1⟩, ⟨0, 1⟩)

/-! ## Dirty tracking: `mark_dirty` and `prerun` -/
/-- Constant `PRERUN_ROW_LIMIT` (pipeline.py line 9). -/
def PRERUN_ROW_LIMIT : Nat := 100000

/-- Assignment to `node.is_dirty`. -/
def setDirtyFlag (g : PGraph) (n : Nat) (b : Bool) : PGraph :=
  { g with is_dirty := Function.update g.is_dirty n b }

/-- Embeds `PipelineNode.mark_dirty` (pipeline.py lines 134-138): set
`is_dirty = True`, then recursively mark every not-already-dirty child.
Fuel replaces the Python call stack; the wrapper's fuel is shown
sufficient for closed graphs. -/
def markDirtyF : Nat → PGraph → Nat → PGraph
  | 0, g, _ => g
  | fuel + 1, g, n =>
      let g1 := setDirtyFlag g n true
      (g.childrenOf n).foldl
        (fun acc c => if acc.is_dirty c then acc else markDirtyF fuel acc c) g1

/-- Runs `PipelineNode.mark_dirty` with its canonical fuel. -/
def markDirty (g : PGraph) (n : Nat) : PGraph :=
  markDirtyF (g.nodes.length + 1) g n

/-- Every listed node's children are listed. -/
def childrenClosed (g : PGraph) : Prop :=
  ∀ m, ∀ c ∈ g.childrenOf m, c ∈ g.nodes

/-- The dirty flags are closed downward along child edges: the invariant
the `mark_dirty` short-circuit relies on. -/
def DirtyDownClosed (g : PGraph) : Prop :=
  ∀ m, g.is_dirty m = true → ∀ c ∈ g.childrenOf m, g.is_dirty c = true

/-- Child-reachability (`m` reachable from `n` following child edges,
including `n` itself). -/
def ReachC (g : PGraph) (a b : Nat) : Prop :=
  Relation.ReflTransGen (fun x y => y ∈ g.childrenOf x) a b

/-- Number of clean listed nodes (the fuel measure of `mark_dirty`). -/
def cleanCount (g : PGraph) : Nat := g.nodes.countP (fun m => !g.is_dirty m)

/-! ## `prerun` -/
/-- Embeds `PipelineNode.prerun` (pipeline.py lines 124-132), with fuel for the
recursion through parents: if the node is dirty and has a unit, prerun
every parent first, then `execute` with the preview row cap, then clear
the dirty flag.  `load_config` (line 130) changes only the unit's
parameters — modelled separately for claim C8 — and neither the dirty
flags nor the cached results, so it does not appear in this state. -/
def prerunF (px : PExec) : Nat → PGraph → Nat → PGraph
  | 0, g, _ => g
  | fuel + 1, g, n =>
      if g.is_dirty n && g.plugin n then
        let g1 := (g.parentsOf n).foldl (fun acc p => prerunF px fuel acc p) g
        setDirtyFlag (nodeExecute px g1 n (some PRERUN_ROW_LIMIT)).1 n false
      else g

/-- Runs `prerun` with its canonical fuel. -/
def prerun (px : PExec) (g : PGraph) (n : Nat) : PGraph :=
  prerunF px (g.nodes.length + 1) g n

/-- Embeds `PipelineNode.add_parent` (pipeline.py lines 140-143): add the edge
on both endpoints, then `mark_dirty`. -/
def addParent (g : PGraph) (n p : Nat) : PGraph :=
  markDirty
    { g with parentsOf := Function.update g.parentsOf n ((g.parentsOf n).insert p),
             childrenOf := Function.update g.childrenOf p ((g.childrenOf p).insert n) } n

/-- Embeds `PipelineNode.del_parent` (pipeline.py lines 145-148): drop the edge
on both endpoints, then `mark_dirty`. -/
def delParent (g : PGraph) (n p : Nat) : PGraph :=
  markDirty
    { g with parentsOf := Function.update g.parentsOf n ((g.parentsOf n).erase p),
             childrenOf := Function.update g.childrenOf p ((g.childrenOf p).erase n) } n

/-- Embeds `PipelineGraph.reset` (pipeline.py lines 237-240): every listed node
loses its result and goes dirty. -/
def resetGraph (g : PGraph) : PGraph :=
  { g with is_dirty := fun m => if m ∈ g.nodes then true else g.is_dirty m,
           result := fun m => if m ∈ g.nodes then none else g.result m }

/-- Embeds `PipelineGraph.add_node` (pipeline.py lines 188-189). -/
def addNode (g : PGraph) (n : Nat) : PGraph :=
  { g with nodes := g.nodes ++ [n] }

/-- Graph states reachable through the exposed API (§6): a freshly wired
graph has every node dirty with no result; the controller may then apply
`prerun` (with any unit behaviours), `mark_dirty` (via
`configure_plugin`), `add_parent`, `del_parent`, `add_node`, `del_node`
and `reset` in any order. -/
inductive ReachableState : PGraph → Prop where
  | init (g : PGraph) (hdirty : ∀ m, g.is_dirty m = true)
      (hres : ∀ m, g.result m = none) : ReachableState g
  | prerunStep (g : PGraph) (px : PExec) (n : Nat) :
      ReachableState g → ReachableState (prerun px g n)
  | markDirtyStep (g : PGraph) (n : Nat) :
      ReachableState g → ReachableState (markDirty g n)
  | addParentStep (g : PGraph) (n p : Nat) :
      ReachableState g → ReachableState (addParent g n p)
  | delParentStep (g : PGraph) (n p : Nat) :
      ReachableState g → ReachableState (delParent g n p)
  | addNodeStep (g : PGraph) (n : Nat) :
      ReachableState g → ReachableState (addNode g n)
  | delNodeStep (g : PGraph) (n : Nat) :
      ReachableState g → ReachableState (delNode g n)
  | resetStep (g : PGraph) : ReachableState g → ReachableState (resetGraph g)

/-- The chain `0 → 1 → 2` where node 1 is a placeholder (no unit). -/
def gChain : PGraph where
  nodes := [0, 1, 2]
  parentsOf := fun m => if m = 1 then [0] else if m = 2 then [1] else []
  childrenOf := fun m => if m = 0 then [1] else if m = 1 then [2] else []
  is_dirty := fun _ => true
  plugin := fun m => if m = 1 then false else true
  result := fun _ => none
  frozen := fun _ => false
  pos := fun _ => none

/-- A unit producing `[1]`. -/
def pxOne : PExec := fun _ _ _ => [1]

/-- The reachable state obtained by prerunning node 0 and then node 2 of
`gChain`: nodes 0 and 2 are clean, the placeholder 1 stays dirty. -/
def gChainPre : PGraph := prerun pxOne (prerun pxOne gChain 0) 2

/-! ## Ancestor closure -/
/-- Node `m` is an ancestor of `a` (or `a` itself), following parent edges. -/
def ReachP (g : PGraph) (a b : Nat) : Prop :=
  Relation.ReflTransGen (fun x y => y ∈ g.parentsOf x) a b

/-- A single parentless node with a unit that yields no items. -/
def gSingle : PGraph where
  nodes := [0]
  parentsOf := fun _ => []
  childrenOf := fun _ => []
  is_dirty := fun _ => true
  plugin := fun _ => true
  result := fun _ => none
  frozen := fun _ => false
  pos := fun _ => none

/-- A unit producing no items at all. -/
def pxEmpty : PExec := fun _ _ _ => []

/-! ## Layout engine (`tidy`, pipeline.py lines 242-302) -/
/-- An `Option`-valued map over a list, failing as soon as one element
fails (the semantics of a Python comprehension raising mid-way). -/
def optMapM {α β : Type} (f : α → Option β) : List α → Option (List β)
  | [] => some []
  | x :: xs =>
      match f x with
      | none => none
      | some v =>
          match optMapM f xs with
          | none => none
          | some vs => some (v :: vs)

/-- First stratum pass (lines 254-259), in traversal order: a parentless
node gets stratum 0, any other `max(stratum[parent]) + 1`.  A missing
dictionary entry (Python `KeyError`) or `max` of nothing aborts. -/
def tidyInitStrata (g : PGraph) : List Nat → (Nat → Option Int) →
    Option (Nat → Option Int)
  | [], st => some st
  | n :: rest, st =>
      if (g.parentsOf n).isEmpty then
        tidyInitStrata g rest (Function.update st n (some 0))
      else
        match optMapM st (g.parentsOf n) with
        | none => none
        | some vs =>
          match vs.max? with
          | none => none
          | some mx => tidyInitStrata g rest (Function.update st n (some (mx + 1)))

/-- The shuffle-down pass (lines 263-270), over the reversed traversal
order: a childed parentless node moves to `min(stratum[child]) - 1`, a
childed node with parents to the floored midpoint
`(min(stratum[child]) + max(stratum[parent])) // 2` (Python floor
division; the divisor is positive so Euclidean division agrees). -/
def tidyShuffle (g : PGraph) : List Nat → (Nat → Option Int) →
    Option (Nat → Option Int)
  | [], st => some st
  | n :: rest, st =>
      if (g.childrenOf n).isEmpty then tidyShuffle g rest st
      else
        match optMapM st (g.childrenOf n) with
        | none => none
        | some cvs =>
          match cvs.min? with
          | none => none
          | some mn =>
            if (g.parentsOf n).length = 0 then
              tidyShuffle g rest (Function.update st n (some (mn - 1)))
            else
              match optMapM st (g.parentsOf n) with
              | none => none
              | some pvs =>
                match pvs.max? with
                | none => none
                | some mx =>
                  tidyShuffle g rest
                    (Function.update st n (some ((mn + mx) / 2)))

/-- Both stratum passes chained over the traversal order. -/
def tidyStrata (g : PGraph) : Option (Nat → Option Int) := do
  let order := traverseNodes g
  let st0 ← tidyInitStrata g order (fun _ => none)
  tidyShuffle g order.reverse st0

/-- Embeds `max_stratum = max(stratum.values())` (line 272): the values are
those of the traversed nodes; `max` of an empty dictionary raises. -/
def tidyMaxStratum (order : List Nat) (st : Nat → Option Int) : Option Int :=
  match optMapM st order with
  | none => none
  | some vs => vs.max?

/-- Python `enumerate`, made explicit. -/
def pyEnum (k : Nat) : List Nat → List (Nat × Nat)
  | [] => []
  | x :: xs => (k, x) :: pyEnum (k + 1) xs

/-- Python `enumerate` over sort entries. -/
def pyEnumS (k : Nat) : List ((Frac × Frac × Nat) × Nat) →
    List (Nat × (Frac × Frac × Nat) × Nat)
  | [] => []
  | x :: xs => (k, x) :: pyEnumS (k + 1) xs

/-- The mutable state of the placement loop: every node's `position`
attribute and the `position` dictionary of already placed x values. -/
structure TidyState where
  posMap : Nat → Option (Frac × Frac)
  xMap : Nat → Option Frac

/-- Embeds `avg_pos_parents` (lines 281-282): mean of the parents' placed x
values; a parent not yet placed raises `KeyError`. -/
def avgPosParents (xm : Nat → Option Frac) (parents : List Nat) : Option Frac :=
  match optMapM xm parents with
  | none => none
  | some vs => some (Frac.div (vs.foldl Frac.add ⟨0, 1⟩)
      (Frac.ofInt (parents.length : Int)))

/-- Ascending lexicographic order on the Python sort keys
`(avg_pos, position[1], index)`; the index is distinct per node, so the
order is total and the sorted list unique. -/
def keyLe (a b : Frac × Frac × Nat) : Bool :=
  if Frac.blt a.1 b.1 then true
  else if Frac.blt b.1 a.1 then false
  else if Frac.blt a.2.1 b.2.1 then true
  else if Frac.blt b.2.1 a.2.1 then false
  else a.2.2 ≤ b.2.2

/-- Insertion into an ascending list. -/
def insertSorted (x : (Frac × Frac × Nat) × Nat) :
    List ((Frac × Frac × Nat) × Nat) → List ((Frac × Frac × Nat) × Nat)
  | [] => [x]
  | y :: ys => if keyLe x.1 y.1 then x :: y :: ys else y :: insertSorted x ys

/-- Embeds `snodes.sort()` (line 293). -/
def sortSNodes : List ((Frac × Frac × Nat) × Nat) → List ((Frac × Frac × Nat) × Nat)
  | [] => []
  | x :: xs => insertSorted x (sortSNodes xs)

/-- The per-stratum placement (lines 298-302): nodes spaced evenly, the
stratum's y applied, and the `position` dictionary extended. -/
def assignPositions (sorted : List ((Frac × Frac × Nat) × Nat)) (y : Frac)
    (ts : TidyState) : TidyState :=
  (pyEnumS 0 sorted).foldl (fun acc e =>
    { posMap := Function.update acc.posMap e.2.2
        (some (y, Frac.div (Frac.add (Frac.ofInt (e.1 : Int)) Frac.half)
          (Frac.ofInt (sorted.length : Int)))),
      xMap := Function.update acc.xMap e.2.2
        (some (Frac.div (Frac.add (Frac.ofInt (e.1 : Int)) Frac.half)
          (Frac.ofInt (sorted.length : Int)))) }) ts

/-- One element of the `snodes` comprehension (lines 284-292): the sort
key of one stratum member — the mean parent x (`0.5` for a source), the
node's current `position[1]` (Python raises `TypeError` here when
`position` is `None`), and the enumeration index. -/
def passEntry (g : PGraph) (ts : TidyState) (t : Nat × Nat × Int) :
    Option ((Frac × Frac × Nat) × Nat) :=
  (if (g.parentsOf t.2.1).isEmpty then some Frac.half
   else avgPosParents ts.xMap (g.parentsOf t.2.1)).bind fun a =>
    (ts.posMap t.2.1).bind fun pp => some ((a, pp.2, t.1), t.2.1)

/-- One iteration of `for s in range(0, max_stratum + 1)` (lines
275-302): build the sort keys of the stratum's nodes — reading
`stratum[node]` for every node, then each member's `passEntry` — sort,
then place. -/
def tidyPass (g : PGraph) (order : List Nat) (st : Nat → Option Int)
    (maxS : Int) (s : Int) (ts : TidyState) : Option TidyState := do
  let withStrata ← optMapM (fun e => do
      let v ← st e.2
      pure (e.1, e.2, v)) (pyEnum 0 order)
  let selected := withStrata.filter (fun t => t.2.2 = s)
  let snodes ← optMapM (passEntry g ts) selected
  let y : Frac := Frac.div (Frac.add (Frac.ofInt s) Frac.half)
    (Frac.ofInt (maxS + 1))
  pure (assignPositions (sortSNodes snodes) y ts)

/-- Embeds `PipelineGraph.tidy` (lines 242-302): compute strata, shuffle,
place stratum by stratum.  Returns the final node positions, or `none`
when the Python code would raise. -/
def tidy (g : PGraph) : Option (Nat → Option (Frac × Frac)) := do
  let order := traverseNodes g
  let st ← tidyStrata g
  let maxS ← tidyMaxStratum order st
  let passes := (List.range (maxS + 1).toNat).map (fun k : Nat => (k : Int))
  let final ← passes.foldlM (fun ts s => tidyPass g order st maxS s ts)
    { posMap := g.pos, xMap := fun _ => none }
  pure final.posMap

/-- Shape of the initial strata: nonnegative, and for a node with
parents exactly one more than the (attained) maximum of its parents'
strata. -/
def initValOk (g : PGraph) (st : Nat → Option Int) (n : Nat) : Prop :=
  ∃ v, st n = some v ∧ 0 ≤ v ∧
    ((g.parentsOf n).isEmpty ∨
     ((∃ p ∈ g.parentsOf n, st p = some (v - 1)) ∧
      (∀ p ∈ g.parentsOf n, ∃ w, st p = some w ∧ w ≤ v - 1)))

/-! ## Theorems -/

/-! ## Claim C4 -/
/-- Claim C4 as stated is false on the code: on a clean node holding the
cached result `[5]`, `execute` with **no** row limit re-invokes the
unit's batch execute and replaces the cached sequence (the cache-reuse
branch requires `row_limit is not None`). -/
theorem C4_no_row_limit_recomputes_counterexample :
    gClean.is_dirty 0 = false ∧ gClean.result 0 = some [5] ∧
    (nodeExecute pxSix gClean 0 none).2 = true ∧
    (nodeExecute pxSix gClean 0 none).1.result 0 = some [6] := by
  refine ⟨rfl, rfl, rfl, ?_⟩
  simp [nodeExecute, gClean, resultTruthy, pxSix]

/-- Claim C4, amended: on any node whose unit is present, `execute` with
no row limit always re-invokes the unit's batch execute and replaces the
cached result with the freshly computed sequence — the cached value is
reused only when a row limit is requested. -/
theorem C4_no_row_limit_always_invokes (px : PExec) (g : PGraph) (n : Nat)
    (hp : g.plugin n = true) :
    (nodeExecute px g n none).2 = true ∧
    (nodeExecute px g n none).1.result n =
      some (px n ((g.parentsOf n).map fun p => (p, g.result p)) none) ∧
    (nodeExecute px g n none).1.is_dirty n = false := by
  simp [nodeExecute, hp]

/-- Witness for `C4_no_row_limit_always_invokes` at the concrete clean
node. -/
theorem C4_no_row_limit_always_invokes_witness :
    gClean.plugin 0 = true ∧
    ((nodeExecute pxSix gClean 0 none).2 = true ∧
     (nodeExecute pxSix gClean 0 none).1.result 0 =
       some (pxSix 0 ((gClean.parentsOf 0).map fun p => (p, gClean.result p)) none) ∧
     (nodeExecute pxSix gClean 0 none).1.is_dirty 0 = false) :=
  ⟨rfl, C4_no_row_limit_always_invokes pxSix gClean 0 rfl⟩

/-! ## Claim C5 -/
/-- Claim C5 as stated is false on the code in the advertised corner
case: a clean node whose cached result is a materialised **empty**
sequence fails the Python truthiness test `self.result`, so `execute`
with a row limit re-invokes the unit rather than being a no-op. -/
theorem C5_empty_cache_counterexample :
    gCleanEmpty.is_dirty 0 = false ∧ gCleanEmpty.result 0 = some [] ∧
    (nodeExecute pxSix gCleanEmpty 0 (some 10)).2 = true ∧
    (nodeExecute pxSix gCleanEmpty 0 (some 10)).1.result 0 = some [6] := by
  refine ⟨rfl, rfl, ?_, ?_⟩ <;>
    simp [nodeExecute, gCleanEmpty, resultTruthy, pxSix]

/-- Claim C5, amended: for every clean node whose cached result is
*truthy* (present and, if materialised, non-empty), calling `execute`
with a row limit is a no-op — the whole node state is unchanged and the
unit's batch execute is not invoked.  A materialised empty cache is
recomputed instead. -/
theorem C5_row_limit_clean_noop (px : PExec) (g : PGraph) (n : Nat) (lim : Nat)
    (hp : g.plugin n = true) (ht : resultTruthy g n = true)
    (hd : g.is_dirty n = false) :
    nodeExecute px g n (some lim) = (g, false) := by
  simp [nodeExecute, hp, ht, hd]

/-- Witness for `C5_row_limit_clean_noop` on the concrete clean node with
a non-empty cache. -/
theorem C5_row_limit_clean_noop_witness :
    gClean.plugin 0 = true ∧ resultTruthy gClean 0 = true ∧
    gClean.is_dirty 0 = false ∧
    nodeExecute pxSix gClean 0 (some 10) = (gClean, false) :=
  ⟨rfl, rfl, rfl, C5_row_limit_clean_noop pxSix gClean 0 10 rfl rfl rfl⟩

/-! ## Claim C6 -/
/-- Claim C6 as stated is false on the code: after `del_node` on node 1
of the two-node graph `0 → 1`, node 1's **own** parent set still contains
its former parent 0 — `detatch` removes the node from each neighbour's
sets but never clears the node's own `parent_nodes`/`child_nodes`.  (The
rest of the claim does happen: 1 is gone from 0's child set and from the
node list.) -/
theorem C6_own_sets_not_cleared_counterexample :
    (delNode gEdge 1).parentsOf 1 = [0] ∧
    0 ∈ (delNode gEdge 1).parentsOf 1 ∧
    1 ∉ (delNode gEdge 1).childrenOf 0 ∧
    1 ∉ (delNode gEdge 1).nodes := by
  refine ⟨?_, ?_, ?_, ?_⟩ <;> simp [delNode, detatch, gEdge]

/-- Claim C6, amended: `del_node(n)` removes `n` from each parent's child
set and from each child's parent set, then removes `n` from the graph's
node list; `n`'s **own** parent and child sets are left unchanged (for a
node that is not its own neighbour). -/
theorem C6_del_node_one_sided (g : PGraph) (n : Nat)
    (hnd : g.nodes.Nodup)
    (hcd : ∀ m, (g.childrenOf m).Nodup) (hpd : ∀ m, (g.parentsOf m).Nodup)
    (hsc : n ∉ g.childrenOf n) (hsp : n ∉ g.parentsOf n) :
    (∀ p ∈ g.parentsOf n, n ∉ (delNode g n).childrenOf p) ∧
    (∀ c ∈ g.childrenOf n, n ∉ (delNode g n).parentsOf c) ∧
    (delNode g n).parentsOf n = g.parentsOf n ∧
    (delNode g n).childrenOf n = g.childrenOf n ∧
    n ∉ (delNode g n).nodes ∧
    (∀ m, m ≠ n → (m ∈ (delNode g n).nodes ↔ m ∈ g.nodes)) := by
  refine ⟨?_, ?_, ?_, ?_, ?_, ?_⟩
  · intro p hpmem
    simp only [delNode, detatch, hpmem, if_pos]
    intro hmem
    exact absurd (((hcd p).mem_erase_iff.mp hmem).1 rfl) (by simp)
  · intro c hcmem
    simp only [delNode, detatch, hcmem, if_pos]
    intro hmem
    exact absurd (((hpd c).mem_erase_iff.mp hmem).1 rfl) (by simp)
  · simp [delNode, detatch, hsc]
  · simp [delNode, detatch, hsp]
  · intro hmem
    exact absurd ((hnd.mem_erase_iff.mp hmem).1 rfl) (by simp)
  · intro m hm
    simp [delNode, detatch, hnd.mem_erase_iff, hm]

/-- Witness for `C6_del_node_one_sided` on the two-node graph. -/
theorem C6_del_node_one_sided_witness :
    gEdge.nodes.Nodup ∧
    ((∀ p ∈ gEdge.parentsOf 1, 1 ∉ (delNode gEdge 1).childrenOf p) ∧
     (∀ c ∈ gEdge.childrenOf 1, 1 ∉ (delNode gEdge 1).parentsOf c) ∧
     (delNode gEdge 1).parentsOf 1 = gEdge.parentsOf 1 ∧
     (delNode gEdge 1).childrenOf 1 = gEdge.childrenOf 1 ∧
     1 ∉ (delNode gEdge 1).nodes ∧
     (∀ m, m ≠ 1 → (m ∈ (delNode gEdge 1).nodes ↔ m ∈ gEdge.nodes))) :=
  ⟨by decide, C6_del_node_one_sided gEdge 1 (by decide)
    (fun m => by simp only [gEdge]; split <;> simp)
    (fun m => by simp only [gEdge]; split <;> simp)
    (by decide) (by decide)⟩

theorem emitted_append (a b : List SEvent) :
    emitted (a ++ b) = emitted a ++ emitted b := by
  induction a with
  | nil => rfl
  | cons e a ih => cases e <;> simp [emitted, ih]

theorem emitted_emitsOf (l : List Nat) : emitted (emitsOf l) = l.map QMsg.data := by
  induction l with
  | nil => rfl
  | cons x l ih => simp [emitsOf, emitted] at ih ⊢; exact ih

theorem count_emitsOf (c : SEvent) (h : ∀ m, c ≠ SEvent.emit m) (l : List Nat) :
    (emitsOf l).count c = 0 := by
  rw [List.count_eq_zero]
  intro hmem
  rcases List.mem_map.mp hmem with ⟨x, -, hx⟩
  exact h (QMsg.data x) hx.symm

/-- In a completed receive loop, `finished(s)` is called exactly once for
each remaining awaited source `s` and never for any other name. -/
theorem runLoop_count_finished (pl : SPlugin) :
    ∀ (msgs : List (String × QMsg)) (sources : List String) (evs : List SEvent),
      sources.Nodup → runLoop pl msgs sources = some evs →
      ∀ s, evs.count (SEvent.finishedCall s) = if s ∈ sources then 1 else 0 := by
  intro msgs
  induction msgs with
  | nil =>
    intro sources evs _ hrun s
    cases sources with
    | nil => simp [runLoop] at hrun; subst hrun; simp
    | cons a ss => simp [runLoop] at hrun
  | cons msg rest ih =>
    intro sources evs hnd hrun s
    cases sources with
    | nil => simp [runLoop] at hrun; subst hrun; simp
    | cons a ss =>
      obtain ⟨src, m⟩ := msg
      simp only [runLoop] at hrun
      by_cases hsrc : src ∈ a :: ss
      · rw [if_pos hsrc] at hrun
        cases m with
        | fin =>
          rw [Option.map_eq_some'] at hrun
          obtain ⟨evs', hrun', rfl⟩ := hrun
          have hnd' : ((a :: ss).erase src).Nodup := hnd.erase src
          have ihv := ih _ _ hnd' hrun' s
          rw [List.count_cons, List.count_append, ihv,
            count_emitsOf _ (by intro m h; cases h) _]
          by_cases hs : s = src
          · subst hs
            simp [hnd.mem_erase_iff, hsrc]
          · have hbe : (SEvent.finishedCall src == SEvent.finishedCall s) = false := by
              simp [Ne.symm hs]
            simp only [hbe, hnd.mem_erase_iff]
            by_cases hmem : s ∈ a :: ss <;> simp [hmem, hs]
        | data x =>
          rw [Option.map_eq_some'] at hrun
          obtain ⟨evs', hrun', rfl⟩ := hrun
          have ihv := ih _ _ hnd hrun' s
          rw [List.count_cons, List.count_append, ihv,
            count_emitsOf _ (by intro m h; cases h) _]
          simp
      · rw [if_neg hsrc] at hrun
        exact absurd hrun (by simp)

/-- A completed receive loop never calls `finalize`. -/
theorem runLoop_count_finalize (pl : SPlugin) :
    ∀ (msgs : List (String × QMsg)) (sources : List String) (evs : List SEvent),
      runLoop pl msgs sources = some evs →
      evs.count SEvent.finalizeCall = 0 := by
  intro msgs
  induction msgs with
  | nil =>
    intro sources evs hrun
    cases sources with
    | nil => simp [runLoop] at hrun; subst hrun; simp
    | cons a ss => simp [runLoop] at hrun
  | cons msg rest ih =>
    intro sources evs hrun
    cases sources with
    | nil => simp [runLoop] at hrun; subst hrun; simp
    | cons a ss =>
      obtain ⟨src, m⟩ := msg
      simp only [runLoop] at hrun
      by_cases hsrc : src ∈ a :: ss
      · rw [if_pos hsrc] at hrun
        cases m with
        | fin =>
          rw [Option.map_eq_some'] at hrun
          obtain ⟨evs', hrun', rfl⟩ := hrun
          rw [List.count_cons, List.count_append, ih _ _ hrun',
            count_emitsOf _ (by intro m h; cases h) _]
          simp
        | data x =>
          rw [Option.map_eq_some'] at hrun
          obtain ⟨evs', hrun', rfl⟩ := hrun
          rw [List.count_cons, List.count_append, ih _ _ hrun',
            count_emitsOf _ (by intro m h; cases h) _]
          simp
      · rw [if_neg hsrc] at hrun
        exact absurd hrun (by simp)

/-- Claim C1: in a completed full run, a worker with at least one parent
calls `finished(source)` exactly once per distinct parent source name,
calls `finalize()` exactly once and only after every `finished`, and
after its own production broadcasts the finished marker, tagged with its
own name, as the last item into every child's mailbox. -/
theorem C1_worker_protocol (pl : SPlugin) (batchOut : List Nat)
    (name : String) (children : List Nat)
    (mailbox : Nat → List (String × QMsg))
    (sources : List String) (msgs : List (String × QMsg)) (evs : List SEvent)
    (hne : sources ≠ []) (hnd : sources.Nodup)
    (hrun : runThread pl batchOut sources msgs = some evs) :
    (∀ s ∈ sources, evs.count (SEvent.finishedCall s) = 1) ∧
    evs.count SEvent.finalizeCall = 1 ∧
    (∃ l1 l2, evs = l1 ++ SEvent.finalizeCall :: l2 ∧
      ∀ s ∈ sources, SEvent.finishedCall s ∈ l1) ∧
    (emitted evs).getLast? = some QMsg.fin ∧
    (∀ c ∈ children,
      queueToChildNodes name children mailbox (emitted evs) c =
        mailbox c ++ (emitted evs).map (fun m => (name, m))) := by
  rw [runThread, if_neg (by simpa using hne)] at hrun
  rw [Option.map_eq_some'] at hrun
  obtain ⟨levs, hloop, hevs⟩ := hrun
  subst hevs
  have hcf := runLoop_count_finished pl msgs sources levs hnd hloop
  have hcz := runLoop_count_finalize pl msgs sources levs hloop
  refine ⟨?_, ?_, ?_, ?_, ?_⟩
  · intro s hs
    have hce : (emitsOf pl.finalizeOut).count (SEvent.finishedCall s) = 0 :=
      count_emitsOf _ (by intro m h; cases h) _
    simp [List.count_append, List.count_cons, hcf s, hs, hce]
  · have hce : (emitsOf pl.finalizeOut).count SEvent.finalizeCall = 0 :=
      count_emitsOf _ (by intro m h; cases h) _
    simp [List.count_append, List.count_cons, hcz, hce]
  · refine ⟨SEvent.prepareCall sources :: levs,
      emitsOf pl.finalizeOut ++ [SEvent.emit QMsg.fin], by simp, ?_⟩
    intro s hs
    have hpos : 0 < levs.count (SEvent.finishedCall s) := by
      rw [hcf s, if_pos hs]; norm_num
    exact List.mem_cons_of_mem _ (List.count_pos_iff.mp hpos)
  · rw [show SEvent.prepareCall sources :: levs ++
        SEvent.finalizeCall :: (emitsOf pl.finalizeOut ++ [SEvent.emit QMsg.fin]) =
        (SEvent.prepareCall sources :: levs ++ SEvent.finalizeCall ::
          emitsOf pl.finalizeOut) ++ [SEvent.emit QMsg.fin] by simp]
    rw [emitted_append]
    simp [emitted]
  · intro c hc
    simp [queueToChildNodes, hc]

/-- Witness for `C1_worker_protocol` on a two-parent node with one
child. -/
theorem C1_worker_protocol_witness :
    (["a", "b"] ≠ ([] : List String)) ∧ (["a", "b"] : List String).Nodup ∧
    runThread plW [] ["a", "b"] msgsW = some evsW ∧
    ((∀ s ∈ ["a", "b"], evsW.count (SEvent.finishedCall s) = 1) ∧
     evsW.count SEvent.finalizeCall = 1 ∧
     (∃ l1 l2, evsW = l1 ++ SEvent.finalizeCall :: l2 ∧
       ∀ s ∈ ["a", "b"], SEvent.finishedCall s ∈ l1) ∧
     (emitted evsW).getLast? = some QMsg.fin ∧
     (∀ c ∈ [0],
       queueToChildNodes "n" [0] (fun _ => []) (emitted evsW) c =
         (fun _ => ([] : List (String × QMsg))) c ++
           (emitted evsW).map (fun m => ("n", m)))) :=
  ⟨by decide, by decide, by decide,
    C1_worker_protocol plW [] "n" [0] (fun _ => []) ["a", "b"] msgsW evsW
      (by decide) (by decide) (by decide)⟩

/-- Claim C8: whenever applying a pending configuration entry raises an
unknown-key or invalid-value error from `set_parameter`, the error is
caught at config-apply time and demoted to a logged warning, and
application continues with the remaining entries; every entry is either
applied or warned about (none aborts the surrounding prerun/run —
`loadConfigEntries` is total and accounts for every entry). -/
theorem C8_config_errors_demoted :
    (∀ (params : ParamNode) (entries : List (String × String × String)),
      (loadConfigEntries params entries).2.1 +
        (loadConfigEntries params entries).2.2.length = entries.length) ∧
    (∀ (params : ParamNode) (key v bd : String)
       (rest : List (String × String × String)) (e : ParamError),
      setParameter (splitKey key) v params = Except.error e →
      loadConfigEntries params ((key, v, bd) :: rest) =
        ((loadConfigEntries params rest).1,
         (loadConfigEntries params rest).2.1,
         (key, v) :: (loadConfigEntries params rest).2.2)) := by
  constructor
  · intro params entries
    induction entries generalizing params with
    | nil => simp [loadConfigEntries]
    | cons entry rest ih =>
      obtain ⟨key, v, bd⟩ := entry
      simp only [loadConfigEntries]
      cases hset : setParameter (splitKey key) v params with
      | ok p' =>
        have := ih p'
        simp only [List.length_cons]
        omega
      | error e =>
        have := ih params
        simp only [List.length_cons]
        omega
  · intro params key v bd rest e hset
    simp [loadConfigEntries, hset]

/-- Witness for `C8_config_errors_demoted`: an unknown key produces a
warning and application continues over the remaining (empty) tail. -/
theorem C8_config_errors_demoted_witness :
    setParameter (splitKey "zz") "v" pW = Except.error ParamError.unknownKey ∧
    loadConfigEntries pW (("zz", "v", ".") :: []) =
      ((loadConfigEntries pW []).1, (loadConfigEntries pW []).2.1,
       ("zz", "v") :: (loadConfigEntries pW []).2.2) :=
  ⟨rfl, C8_config_errors_demoted.2 pW "zz" "v" "." [] ParamError.unknownKey rfl⟩

theorem tnScan_found (g : PGraph) :
    ∀ (l found : List Nat), (tnScan g l found).2 = found ++ (tnScan g l found).1 := by
  intro l
  induction l with
  | nil => intro found; simp [tnScan]
  | cons n rest ih =>
    intro found
    by_cases h : n ∉ found ∧ ∀ p ∈ g.parentsOf n, p ∈ found
    · simp only [tnScan, if_pos h]
      rw [ih (found ++ [n])]
      simp
    · simp only [tnScan, if_neg h]
      exact ih found

theorem tnScan_subset (g : PGraph) :
    ∀ (l found : List Nat), ∀ x ∈ (tnScan g l found).1, x ∈ l ∧ x ∉ found := by
  intro l
  induction l with
  | nil => intro found x hx; simp [tnScan] at hx
  | cons n rest ih =>
    intro found x hx
    by_cases h : n ∉ found ∧ ∀ p ∈ g.parentsOf n, p ∈ found
    · simp only [tnScan, if_pos h] at hx
      rcases List.mem_cons.mp hx with rfl | hx'
      · exact ⟨List.mem_cons_self _ _, h.1⟩
      · have := ih (found ++ [n]) x hx'
        exact ⟨List.mem_cons_of_mem _ this.1, fun hf => this.2 (by simp [hf])⟩
    · simp only [tnScan, if_neg h] at hx
      have := ih found x hx
      exact ⟨List.mem_cons_of_mem _ this.1, this.2⟩

theorem tnScan_nodup (g : PGraph) :
    ∀ (l found : List Nat), l.Nodup → (tnScan g l found).1.Nodup := by
  intro l
  induction l with
  | nil => intro found _; simp [tnScan]
  | cons n rest ih =>
    intro found hnd
    by_cases h : n ∉ found ∧ ∀ p ∈ g.parentsOf n, p ∈ found
    · simp only [tnScan, if_pos h]
      refine List.nodup_cons.mpr ⟨?_, ih (found ++ [n]) (List.nodup_cons.mp hnd).2⟩
      intro hmem
      exact (List.nodup_cons.mp hnd).1 (tnScan_subset g rest (found ++ [n]) n hmem).1
    · simp only [tnScan, if_neg h]
      exact ih found (List.nodup_cons.mp hnd).2

theorem tnScan_parents (g : PGraph) :
    ∀ (l found a b : List Nat) (n : Nat),
      (tnScan g l found).1 = a ++ n :: b →
      ∀ p ∈ g.parentsOf n, p ∈ found ++ a := by
  intro l
  induction l with
  | nil =>
    intro found a b n h
    rw [show (tnScan g [] found).1 = [] from rfl] at h
    cases a <;> simp at h
  | cons m rest ih =>
    intro found a b n h
    by_cases hc : m ∉ found ∧ ∀ p ∈ g.parentsOf m, p ∈ found
    · simp only [tnScan, if_pos hc] at h
      cases a with
      | nil =>
        obtain ⟨rfl, -⟩ := List.cons_eq_cons.mp h
        intro p hp
        simpa using hc.2 p hp
      | cons a0 a' =>
        obtain ⟨rfl, h'⟩ := List.cons_eq_cons.mp h
        intro p hp
        have := ih (found ++ [m]) a' b n h' p hp
        simpa [List.append_assoc] using this
    · simp only [tnScan, if_neg hc] at h
      exact ih found a b n h

theorem tnScan_progress (g : PGraph) :
    ∀ (l found : List Nat) (m : Nat), m ∈ l → m ∉ found →
      (∀ p ∈ g.parentsOf m, p ∈ found) → (tnScan g l found).1 ≠ [] := by
  intro l
  induction l with
  | nil => intro found m hm; simp at hm
  | cons n rest ih =>
    intro found m hm hnf hpar
    by_cases hc : n ∉ found ∧ ∀ p ∈ g.parentsOf n, p ∈ found
    · simp [tnScan, if_pos hc]
    · simp only [tnScan, if_neg hc]
      rcases List.mem_cons.mp hm with rfl | hm'
      · exact absurd ⟨hnf, hpar⟩ hc
      · exact ih found m hm' hnf hpar

/-- In a finite acyclic graph, every nonempty set of nodes contains a
node none of whose parents lie in the set. -/
theorem exists_ready_node (g : PGraph) (hacy : Acyclic g) :
    ∀ S : Finset Nat, S.Nonempty → ∃ m ∈ S, ∀ p ∈ g.parentsOf m, p ∉ S := by
  classical
  intro S
  induction S using Finset.strongInduction with
  | _ S ih =>
    intro hne
    obtain ⟨y, hy⟩ := hne
    set S' : Finset Nat := S.filter (fun x => Relation.TransGen (pEdge g) x y) with hS'
    by_cases hne' : S'.Nonempty
    · have hss : S' ⊂ S := by
        refine ⟨Finset.filter_subset _ _, fun hsub => ?_⟩
        have : y ∈ S' := hsub hy
        rw [hS', Finset.mem_filter] at this
        exact hacy y this.2
      obtain ⟨m, hm, hmp⟩ := ih S' hss hne'
      rw [hS', Finset.mem_filter] at hm
      refine ⟨m, hm.1, fun p hp hpS => ?_⟩
      have hptrans : Relation.TransGen (pEdge g) p y :=
        Relation.TransGen.head hp hm.2
      exact hmp p hp (by rw [hS', Finset.mem_filter]; exact ⟨hpS, hptrans⟩)
    · refine ⟨y, hy, fun p hp hpS => ?_⟩
      refine hne' ⟨p, ?_⟩
      rw [hS', Finset.mem_filter]
      exact ⟨hpS, Relation.TransGen.single hp⟩

theorem tnLoop_spec (g : PGraph) (hnd : g.nodes.Nodup) (hpc : parentsClosed g)
    (hacy : Acyclic g) :
    ∀ (fuel : Nat) (found : List Nat),
      found.Nodup → (∀ x ∈ found, x ∈ g.nodes) →
      (∀ x ∈ found, ∀ p ∈ g.parentsOf x, p ∈ found) →
      g.nodes.length - found.length ≤ fuel →
      (found ++ tnLoop g fuel found).Perm g.nodes ∧
      (∀ (a b : List Nat) (n : Nat), tnLoop g fuel found = a ++ n :: b →
        ∀ p ∈ g.parentsOf n, p ∈ found ++ a) := by
  have hcover : ∀ found : List Nat, found.Nodup → (∀ x ∈ found, x ∈ g.nodes) →
      g.nodes.length ≤ found.length → found.Perm g.nodes := by
    intro found hfnd hsub hlen
    exact (List.subperm_of_subset hfnd hsub).perm_of_length_le hlen
  intro fuel
  induction fuel with
  | zero =>
    intro found hfnd hsub hclosed hfuel
    refine ⟨by simpa [tnLoop] using hcover found hfnd hsub (by omega), ?_⟩
    intro a b n h
    rw [show tnLoop g 0 found = [] from rfl] at h
    cases a <;> simp at h
  | succ fuel ih =>
    intro found hfnd hsub hclosed hfuel
    by_cases hlt : found.length < g.nodes.length
    · -- the scan makes progress
      have hprog : (tnScan g g.nodes found).1 ≠ [] := by
        -- a ready node outside `found` exists
        have hSne : (g.nodes.toFinset \ found.toFinset).Nonempty := by
          rw [Finset.sdiff_nonempty]
          intro habs
          have : g.nodes.length ≤ found.length := by
            have h1 := Finset.card_le_card habs
            rwa [List.toFinset_card_of_nodup hnd,
              List.toFinset_card_of_nodup hfnd] at h1
          omega
        obtain ⟨m, hm, hmp⟩ := exists_ready_node g hacy _ hSne
        rw [Finset.mem_sdiff, List.mem_toFinset, List.mem_toFinset] at hm
        refine tnScan_progress g g.nodes found m hm.1 hm.2 ?_
        intro p hp
        have hpn : p ∈ g.nodes := hpc m hm.1 p hp
        have := hmp p hp
        rw [Finset.mem_sdiff, List.mem_toFinset, List.mem_toFinset] at this
        by_contra hpf
        exact this ⟨hpn, hpf⟩
      set r := tnScan g g.nodes found with hr
      have hfound2 : r.2 = found ++ r.1 := tnScan_found g g.nodes found
      have hsub1 : ∀ x ∈ r.1, x ∈ g.nodes ∧ x ∉ found :=
        fun x hx => tnScan_subset g g.nodes found x hx
      have hnd1 : r.1.Nodup := tnScan_nodup g g.nodes found hnd
      have hfnd' : (found ++ r.1).Nodup := by
        rw [List.nodup_append]
        exact ⟨hfnd, hnd1, fun x hx hx1 => (hsub1 x hx1).2 hx⟩
      have hsub' : ∀ x ∈ found ++ r.1, x ∈ g.nodes := by
        intro x hx
        rcases List.mem_append.mp hx with hx | hx
        · exact hsub x hx
        · exact (hsub1 x hx).1
      have hclosed' : ∀ x ∈ found ++ r.1, ∀ p ∈ g.parentsOf x, p ∈ found ++ r.1 := by
        intro x hx p hp
        rcases List.mem_append.mp hx with hx | hx
        · exact List.mem_append_left _ (hclosed x hx p hp)
        · obtain ⟨a, b, hab⟩ := List.append_of_mem hx
          have := tnScan_parents g g.nodes found a b x hab p hp
          rcases List.mem_append.mp this with h | h
          · exact List.mem_append_left _ h
          · exact List.mem_append_right _ (hab ▸ List.mem_append_left _ h)
      have hlen' : g.nodes.length - (found ++ r.1).length ≤ fuel := by
        have h1 : 1 ≤ r.1.length := by
          cases hl : r.1 with
          | nil => exact absurd hl hprog
          | cons => simp
        rw [List.length_append]
        omega
      have ihv := ih (found ++ r.1) hfnd' hsub' hclosed' hlen'
      constructor
      · have hperm := ihv.1
        rw [show tnLoop g (fuel + 1) found = r.1 ++ tnLoop g fuel r.2 by
          simp [tnLoop, if_pos hlt, hr]]
        rw [hfound2, ← List.append_assoc]
        exact hperm
      · intro a b n h
        rw [show tnLoop g (fuel + 1) found = r.1 ++ tnLoop g fuel r.2 by
          simp [tnLoop, if_pos hlt, hr]] at h
        rcases List.append_eq_append_iff.mp h with ⟨a', rfl, h2⟩ | ⟨c, hc, h2⟩
        · -- split in the tail produced by the recursive loop
          rw [hfound2] at h2
          have := ihv.2 a' b n h2
          intro p hp
          have hpm := this p hp
          rw [List.append_assoc] at hpm
          exact hpm
        · -- split inside the scan output, or right at its boundary
          cases c with
          | nil =>
            -- n :: b = tnLoop …; a split at the head of the tail
            simp only [List.append_nil] at hc
            rw [hfound2] at h2
            have := ihv.2 [] b n (by simpa using h2.symm)
            intro p hp
            have hpm := this p hp
            rw [← hc]
            simpa using hpm
          | cons c0 c' =>
            obtain ⟨rfl, -⟩ := List.cons_eq_cons.mp h2
            rw [hr] at hc
            intro p hp
            exact tnScan_parents g g.nodes found a c' n hc p hp
    · refine ⟨?_, ?_⟩
      · rw [show tnLoop g (fuel + 1) found = [] by simp [tnLoop, if_neg hlt]]
        simpa using hcover found hfnd hsub (by omega)
      · intro a b n h
        rw [show tnLoop g (fuel + 1) found = [] by simp [tnLoop, if_neg hlt]] at h
        cases a <;> simp at h

/-- Forward topological traversal: yields a permutation of the node list
(each node exactly once), and every yielded node appears strictly after
all of its parents. -/
theorem traverseNodes_spec (g : PGraph)
    (hnd : g.nodes.Nodup) (hpc : parentsClosed g) (hacy : Acyclic g) :
    (traverseNodes g).Perm g.nodes ∧
    (∀ (a b : List Nat) (n : Nat), traverseNodes g = a ++ n :: b →
      ∀ p ∈ g.parentsOf n, p ∈ a) := by
  set init := g.nodes.filter (fun n => (g.parentsOf n).isEmpty) with hinit
  have hindnd : init.Nodup := hnd.filter _
  have hinsub : ∀ x ∈ init, x ∈ g.nodes := by
    intro x hx; exact (List.mem_filter.mp hx).1
  have hinpar : ∀ x ∈ init, g.parentsOf x = [] := by
    intro x hx
    have := (List.mem_filter.mp hx).2
    simpa [List.isEmpty_iff] using this
  have hclosed : ∀ x ∈ init, ∀ p ∈ g.parentsOf x, p ∈ init := by
    intro x hx p hp
    rw [hinpar x hx] at hp
    simp at hp
  have hfuel : g.nodes.length - init.length ≤ g.nodes.length := by omega
  have hspec := tnLoop_spec g hnd hpc hacy g.nodes.length init
    hindnd hinsub hclosed hfuel
  have htrav : traverseNodes g = init ++ tnLoop g g.nodes.length init := rfl
  constructor
  · rw [htrav]; exact hspec.1
  · intro a b n h
    rw [htrav] at h
    rcases List.append_eq_append_iff.mp h with ⟨a', rfl, h2⟩ | ⟨c, hc, h2⟩
    · intro p hp
      have := hspec.2 a' b n h2 p hp
      exact this
    · cases c with
      | nil =>
        simp only [List.append_nil] at hc
        have := hspec.2 [] b n (by simpa using h2.symm)
        intro p hp
        have hpm := this p hp
        rw [← hc]
        simpa using hpm
      | cons c0 c' =>
        obtain ⟨rfl, -⟩ := List.cons_eq_cons.mp h2
        have hnin : n ∈ init := by rw [hc]; simp
        intro p hp
        rw [hinpar n hnin] at hp
        simp at hp

/-- A rank certificate (every parent strictly below its child) rules out
cycles. -/
theorem acyclic_of_rank (g : PGraph) (ρ : Nat → Nat)
    (h : ∀ b, ∀ a ∈ g.parentsOf b, ρ a < ρ b) : Acyclic g := by
  intro n hcyc
  have mono : ∀ x y, Relation.TransGen (pEdge g) x y → ρ x < ρ y := by
    intro x y hxy
    induction hxy with
    | single h1 => exact h _ _ h1
    | tail _ h2 ih => exact lt_trans ih (h _ _ h2)
  exact absurd (mono n n hcyc) (lt_irrefl _)

/-- Conversely, a finite closed acyclic graph admits a rank (the position
in the forward traversal). -/
theorem exists_rank (g : PGraph) (hnd : g.nodes.Nodup) (hpc : parentsClosed g)
    (hacy : Acyclic g) :
    ∃ ρ : Nat → Nat, (∀ m ∈ g.nodes, ∀ p ∈ g.parentsOf m, ρ p < ρ m) ∧
      (∀ m ∈ g.nodes, ρ m < g.nodes.length) := by
  obtain ⟨hperm, hord⟩ := traverseNodes_spec g hnd hpc hacy
  refine ⟨fun x => (traverseNodes g).indexOf x, ?_, ?_⟩
  case refine_2 =>
    intro m hm
    have hmt : m ∈ traverseNodes g := hperm.mem_iff.mpr hm
    have := List.indexOf_lt_length.mpr hmt
    have hlen := hperm.length_eq
    simp only
    omega
  intro m hm p hp
  have hmt : m ∈ traverseNodes g := hperm.mem_iff.mpr hm
  obtain ⟨a, b, hab⟩ := List.append_of_mem hmt
  have hpa : p ∈ a := hord a b m hab p hp
  have htnd : (traverseNodes g).Nodup := hperm.nodup_iff.mpr hnd
  have hmna : m ∉ a := by
    rw [hab] at htnd
    rcases List.nodup_append.mp htnd with ⟨-, hnd2, hdisj⟩
    intro hma
    exact hdisj hma (List.mem_cons_self _ _)
  have hgoal : List.indexOf p (a ++ m :: b) < List.indexOf m (a ++ m :: b) := by
    rw [List.indexOf_append_of_mem hpa, List.indexOf_append_of_not_mem hmna,
      List.indexOf_cons_self]
    have := List.indexOf_lt_length.mpr hpa
    omega
  show List.indexOf p (traverseNodes g) < List.indexOf m (traverseNodes g)
  rw [hab]
  exact hgoal

/-- Claim C3: for every acyclic graph (duplicate-free node list whose
parents are all listed), the forward topological traversal yields each
node of the graph exactly once (a permutation of the node list), and
every node strictly after all of its parents. -/
theorem C3_traverse_topological (g : PGraph)
    (hnd : g.nodes.Nodup) (hpc : parentsClosed g) (hacy : Acyclic g) :
    (traverseNodes g).Perm g.nodes ∧
    (∀ (a b : List Nat) (n : Nat), traverseNodes g = a ++ n :: b →
      ∀ p ∈ g.parentsOf n, p ∈ a) :=
  traverseNodes_spec g hnd hpc hacy

theorem gDiamond_rank : ∀ b, ∀ a ∈ gDiamond.parentsOf b, a < b := by
  intro b a ha
  by_cases h1 : b = 1
  · subst h1; simp [gDiamond] at ha; omega
  by_cases h2 : b = 2
  · subst h2; simp [gDiamond] at ha; omega
  by_cases h3 : b = 3
  · subst h3; simp [gDiamond] at ha; rcases ha with rfl | rfl <;> omega
  · simp [gDiamond, h1, h2, h3] at ha

/-- Witness for `C3_traverse_topological` on the diamond. -/
theorem C3_traverse_topological_witness :
    gDiamond.nodes.Nodup ∧ parentsClosed gDiamond ∧
    ((traverseNodes gDiamond).Perm gDiamond.nodes ∧
     (∀ (a b : List Nat) (n : Nat), traverseNodes gDiamond = a ++ n :: b →
       ∀ p ∈ gDiamond.parentsOf n, p ∈ a)) :=
  ⟨by decide, by unfold parentsClosed; decide,
    C3_traverse_topological gDiamond (by decide) (by unfold parentsClosed; decide)
      (acyclic_of_rank gDiamond (fun x => x) gDiamond_rank)⟩

theorem cleanCount_le (g : PGraph) : cleanCount g ≤ g.nodes.length :=
  List.countP_le_length _

theorem cleanCount_congr (g g' : PGraph) (hn : g'.nodes = g.nodes)
    (h : ∀ m, g'.is_dirty m = g.is_dirty m) : cleanCount g' = cleanCount g := by
  unfold cleanCount
  rw [hn]
  exact List.countP_congr (fun m _ => by rw [h m])

theorem cleanCount_set_dirty (g : PGraph) (n : Nat) (hnd : g.nodes.Nodup)
    (hn : n ∈ g.nodes) (hclean : g.is_dirty n = false) :
    cleanCount (setDirtyFlag g n true) + 1 = cleanCount g := by
  obtain ⟨a, b, hab⟩ := List.append_of_mem hn
  have hnodes : (setDirtyFlag g n true).nodes = g.nodes := rfl
  unfold cleanCount
  rw [hnodes, hab]
  rw [hab] at hnd
  rcases List.nodup_append.mp hnd with ⟨-, hnd2, hdisj⟩
  have hna : n ∉ a := fun hma => hdisj hma (List.mem_cons_self _ _)
  have hnb : n ∉ b := (List.nodup_cons.mp hnd2).1
  rw [List.countP_append, List.countP_append, List.countP_cons, List.countP_cons]
  have hca : a.countP (fun m => !(setDirtyFlag g n true).is_dirty m) =
      a.countP (fun m => !g.is_dirty m) := by
    refine List.countP_congr (fun m hm => ?_)
    have : m ≠ n := fun h => hna (h ▸ hm)
    simp [setDirtyFlag, Function.update_noteq this]
  have hcb : b.countP (fun m => !(setDirtyFlag g n true).is_dirty m) =
      b.countP (fun m => !g.is_dirty m) := by
    refine List.countP_congr (fun m hm => ?_)
    have : m ≠ n := fun h => hnb (h ▸ hm)
    simp [setDirtyFlag, Function.update_noteq this]
  rw [hca, hcb]
  simp [setDirtyFlag, hclean]
  omega

/-- Behaviour of `mark_dirty` with sufficient fuel: only dirty flags
change and only upward (clean to dirty); the target and all its children
end dirty; every newly dirty node has all its children dirty; and the
number of clean nodes does not grow (strictly shrinking when the target
was clean). -/
theorem markDirtyF_spec :
    ∀ (fuel : Nat) (g : PGraph) (n : Nat),
      g.nodes.Nodup → childrenClosed g → n ∈ g.nodes →
      cleanCount g + (if g.is_dirty n then 1 else 0) ≤ fuel →
      (markDirtyF fuel g n).nodes = g.nodes ∧
      (markDirtyF fuel g n).childrenOf = g.childrenOf ∧
      (markDirtyF fuel g n).parentsOf = g.parentsOf ∧
      (∀ m, g.is_dirty m = true → (markDirtyF fuel g n).is_dirty m = true) ∧
      (markDirtyF fuel g n).is_dirty n = true ∧
      (∀ c ∈ g.childrenOf n, (markDirtyF fuel g n).is_dirty c = true) ∧
      (∀ m, (markDirtyF fuel g n).is_dirty m = true → g.is_dirty m = false →
        ∀ c ∈ g.childrenOf m, (markDirtyF fuel g n).is_dirty c = true) ∧
      cleanCount (markDirtyF fuel g n) + (if g.is_dirty n then 0 else 1) ≤ cleanCount g := by
  intro fuel
  induction fuel with
  | zero =>
    intro g n hnd hcc hn hfuel
    exfalso
    by_cases hd : g.is_dirty n = true
    · rw [if_pos hd] at hfuel
      omega
    · rw [if_neg hd] at hfuel
      have hdf : g.is_dirty n = false := by simpa using hd
      have hpos : 0 < cleanCount g := by
        unfold cleanCount
        exact List.countP_pos_iff.mpr ⟨n, hn, by simp [hdf]⟩
      omega
  | succ fuel ihf =>
    intro g n hnd hcc hn hfuel
    set g1 := setDirtyFlag g n true with hg1
    have hg1nodes : g1.nodes = g.nodes := rfl
    have hg1ch : g1.childrenOf = g.childrenOf := rfl
    have hg1pa : g1.parentsOf = g.parentsOf := rfl
    have hg1dirty : ∀ m, m ≠ n → g1.is_dirty m = g.is_dirty m := by
      intro m hm
      simp [hg1, setDirtyFlag, Function.update_noteq hm]
    have hg1n : g1.is_dirty n = true := by
      simp [hg1, setDirtyFlag]
    have hg1mono : ∀ m, g.is_dirty m = true → g1.is_dirty m = true := by
      intro m h
      by_cases hmn : m = n
      · subst hmn; exact hg1n
      · rw [hg1dirty m hmn]; exact h
    have hg1clean : cleanCount g1 + (if g.is_dirty n then 0 else 1) ≤ cleanCount g := by
      by_cases hd : g.is_dirty n = true
      · have heq : cleanCount g1 = cleanCount g := by
          refine cleanCount_congr g g1 hg1nodes (fun m => ?_)
          by_cases hmn : m = n
          · subst hmn; rw [hg1n, hd]
          · exact hg1dirty m hmn
        simp [hd, heq]
      · have hb : g.is_dirty n = false := by simpa using hd
        have := cleanCount_set_dirty g n hnd hn hb
        simp [hb, ← hg1] at this ⊢
        omega
    -- the fold over the children
    have inner : ∀ (l : List Nat) (acc : PGraph),
        (∀ c ∈ l, c ∈ g.nodes) →
        acc.nodes = g.nodes → acc.childrenOf = g.childrenOf →
        acc.parentsOf = g.parentsOf →
        (∀ m, acc.is_dirty m = true → g.is_dirty m = false → m ≠ n →
          ∀ c ∈ g.childrenOf m, acc.is_dirty c = true) →
        cleanCount acc ≤ cleanCount g1 →
        (l.foldl (fun acc c => if acc.is_dirty c then acc
            else markDirtyF fuel acc c) acc).nodes = g.nodes ∧
        (l.foldl (fun acc c => if acc.is_dirty c then acc
            else markDirtyF fuel acc c) acc).childrenOf = g.childrenOf ∧
        (l.foldl (fun acc c => if acc.is_dirty c then acc
            else markDirtyF fuel acc c) acc).parentsOf = g.parentsOf ∧
        (∀ m, acc.is_dirty m = true →
          (l.foldl (fun acc c => if acc.is_dirty c then acc
            else markDirtyF fuel acc c) acc).is_dirty m = true) ∧
        (∀ c ∈ l, (l.foldl (fun acc c => if acc.is_dirty c then acc
            else markDirtyF fuel acc c) acc).is_dirty c = true) ∧
        (∀ m, (l.foldl (fun acc c => if acc.is_dirty c then acc
            else markDirtyF fuel acc c) acc).is_dirty m = true →
          g.is_dirty m = false → m ≠ n →
          ∀ c ∈ g.childrenOf m, (l.foldl (fun acc c => if acc.is_dirty c then acc
            else markDirtyF fuel acc c) acc).is_dirty c = true) ∧
        cleanCount (l.foldl (fun acc c => if acc.is_dirty c then acc
            else markDirtyF fuel acc c) acc) ≤ cleanCount acc := by
      intro l
      induction l with
      | nil =>
        intro acc _ hn1 hn2 hn3 hnew hcl
        exact ⟨hn1, hn2, hn3, fun m h => h, by simp,
          fun m h1 h2 h3 => hnew m h1 h2 h3, le_refl _⟩
      | cons c rest ihl =>
        intro acc hlsub hn1 hn2 hn3 hnew hcl
        simp only [List.foldl_cons]
        by_cases hdc : acc.is_dirty c = true
        · rw [if_pos hdc]
          have ihr := ihl acc (fun x hx => hlsub x (List.mem_cons_of_mem _ hx))
            hn1 hn2 hn3 hnew hcl
          refine ⟨ihr.1, ihr.2.1, ihr.2.2.1, ihr.2.2.2.1, ?_, ihr.2.2.2.2.2.1,
            ihr.2.2.2.2.2.2⟩
          intro x hx
          rcases List.mem_cons.mp hx with rfl | hx'
          · exact ihr.2.2.2.1 x hdc
          · exact ihr.2.2.2.2.1 x hx'
        · rw [if_neg hdc]
          have hdcf : acc.is_dirty c = false := by simpa using hdc
          have hcacc : c ∈ acc.nodes := hn1 ▸ hlsub c (List.mem_cons_self _ _)
          have hccacc : childrenClosed acc := by
            intro m x hx
            rw [hn2] at hx
            rw [hn1]
            exact hcc m x hx
          have hndacc : acc.nodes.Nodup := hn1 ▸ hnd
          have hfacc : cleanCount acc + (if acc.is_dirty c then 1 else 0) ≤ fuel := by
            simp only [hdcf, Bool.false_eq_true, if_false]
            have h1 := hg1clean
            have h2 := hfuel
            by_cases hd : g.is_dirty n = true
            · simp [hd] at h1 h2; omega
            · simp [hd] at h1 h2; omega
          have hspec := ihf acc c hndacc hccacc hcacc hfacc
          set acc' := markDirtyF fuel acc c with hacc'
          have hmono' : ∀ m, acc.is_dirty m = true → acc'.is_dirty m = true :=
            hspec.2.2.2.1
          have hacc'cl : cleanCount acc' + 1 ≤ cleanCount acc := by
            have h7 := hspec.2.2.2.2.2.2.2
            simpa [hdcf] using h7
          have hacc'new : ∀ m, acc'.is_dirty m = true → g.is_dirty m = false → m ≠ n →
              ∀ x ∈ g.childrenOf m, acc'.is_dirty x = true := by
            intro m h1 h2 h3 x hx
            by_cases ham : acc.is_dirty m = true
            · exact hmono' x (hnew m ham h2 h3 x hx)
            · have ham' : acc.is_dirty m = false := by simpa using ham
              have hd7 := hspec.2.2.2.2.2.2.1 m h1 ham'
              rw [hn2] at hd7
              exact hd7 x hx
          have ihr := ihl acc' (fun x hx => hlsub x (List.mem_cons_of_mem _ hx))
            (hspec.1.trans hn1) (hspec.2.1.trans hn2) (hspec.2.2.1.trans hn3)
            hacc'new (by omega)
          refine ⟨ihr.1, ihr.2.1, ihr.2.2.1, ?_, ?_, ihr.2.2.2.2.2.1, by
            have := ihr.2.2.2.2.2.2
            omega⟩
          · intro m h
            exact ihr.2.2.2.1 m (hmono' m h)
          · intro x hx
            rcases List.mem_cons.mp hx with rfl | hx'
            · exact ihr.2.2.2.1 x hspec.2.2.2.2.1
            · exact ihr.2.2.2.2.1 x hx'
    have hi := inner (g.childrenOf n) g1 (fun c hc => hcc n c hc)
      hg1nodes hg1ch hg1pa
      (by
        intro m h1 h2 h3 c hc
        rw [hg1dirty m h3] at h1
        simp [h1] at h2)
      (le_refl _)
    have hunfold : markDirtyF (fuel + 1) g n =
        (g.childrenOf n).foldl (fun acc c => if acc.is_dirty c then acc
          else markDirtyF fuel acc c) g1 := rfl
    rw [hunfold]
    refine ⟨hi.1, hi.2.1, hi.2.2.1, ?_, ?_, hi.2.2.2.2.1, ?_, ?_⟩
    · intro m h
      exact hi.2.2.2.1 m (hg1mono m h)
    · exact hi.2.2.2.1 n hg1n
    · intro m h1 h2 c hc
      by_cases hmn : m = n
      · subst hmn
        exact hi.2.2.2.2.1 c hc
      · exact hi.2.2.2.2.2.1 m h1 h2 hmn c hc
    · have h6 := hi.2.2.2.2.2.2
      have h7 := hg1clean
      by_cases hd : g.is_dirty n = true
      · simp [hd] at h7 ⊢; omega
      · simp [hd] at h7 ⊢; omega

/-- Claim C2, amended: in any graph state whose dirty flags are closed
downward along child edges (the invariant the short-circuit relies on,
maintained when every node has a unit), after `mark_dirty(N)` every node
reachable from `N` via child edges is dirty. -/
theorem C2_mark_dirty_reach (g : PGraph) (n m : Nat)
    (hnd : g.nodes.Nodup) (hcc : childrenClosed g) (hn : n ∈ g.nodes)
    (hdc : DirtyDownClosed g) (hr : ReachC g n m) :
    (markDirty g n).is_dirty m = true := by
  have hfuel : cleanCount g + (if g.is_dirty n then 1 else 0) ≤ g.nodes.length + 1 := by
    have := cleanCount_le g
    by_cases hd : g.is_dirty n = true <;> simp [hd] <;> omega
  obtain ⟨h1, h2, h3, hmono, hdn, hchd, hnew, -⟩ :=
    markDirtyF_spec (g.nodes.length + 1) g n hnd hcc hn hfuel
  have hdc' : ∀ x, (markDirty g n).is_dirty x = true →
      ∀ c ∈ g.childrenOf x, (markDirty g n).is_dirty c = true := by
    intro x hx c hc
    by_cases hgx : g.is_dirty x = true
    · exact hmono c (hdc x hgx c hc)
    · exact hnew x hx (by simpa using hgx) c hc
  induction hr with
  | refl => exact hdn
  | tail hab hbc ih => exact hdc' _ ih _ hbc

/-- Witness for `C2_mark_dirty_reach` on the two-node edge (all dirty,
hence trivially down-closed). -/
theorem C2_mark_dirty_reach_witness :
    gEdge.nodes.Nodup ∧ DirtyDownClosed gEdge ∧ ReachC gEdge 0 1 ∧
    (markDirty gEdge 0).is_dirty 1 = true := by
  refine ⟨by decide, ?_, ?_, ?_⟩
  · intro m hm c hc
    rfl
  · exact Relation.ReflTransGen.single (by decide)
  · exact C2_mark_dirty_reach gEdge 0 1 (by decide)
      (by
        intro m c hc
        by_cases h0 : m = 0
        · subst h0; simp [gEdge] at hc; simp [gEdge, hc]
        · simp [gEdge, h0] at hc)
      (by decide)
      (fun m hm c hc => rfl)
      (Relation.ReflTransGen.single (by decide))

/-- Claim C2 as stated is false on the code: `gChainPre` is a reachable
graph state (built with `prerun` only), node 2 is reachable from node 0
via child edges, yet after `mark_dirty(0)` node 2 is still clean — the
recursion short-circuits on the placeholder node 1, which `prerun`
skipped (leaving it dirty) while cleaning node 2 below it. -/
theorem C2_short_circuit_counterexample :
    ReachableState gChainPre ∧
    ReachC gChainPre 0 2 ∧
    (markDirty gChainPre 0).is_dirty 2 = false :=
  ⟨ReachableState.prerunStep _ pxOne 2
      (ReachableState.prerunStep _ pxOne 0
        (ReachableState.init gChain (fun _ => rfl) (fun _ => rfl))),
   Relation.ReflTransGen.tail
     (Relation.ReflTransGen.single (show (1 : Nat) ∈ gChainPre.childrenOf 0 by decide))
     (show (2 : Nat) ∈ gChainPre.childrenOf 1 by decide),
   by decide⟩

theorem ReachP_congr (g g' : PGraph) (h : g'.parentsOf = g.parentsOf) (a b : Nat) :
    ReachP g' a b ↔ ReachP g a b := by
  unfold ReachP
  rw [h]

theorem ReachP_trans (g : PGraph) {a b c : Nat} (h1 : ReachP g a b)
    (h2 : ReachP g b c) : ReachP g a c :=
  Relation.ReflTransGen.trans h1 h2

theorem ReachP_step (g : PGraph) {n p : Nat} (h : p ∈ g.parentsOf n) :
    ReachP g n p :=
  Relation.ReflTransGen.single h

theorem ReachP_mem (g : PGraph) (hpc : parentsClosed g) {a b : Nat}
    (ha : a ∈ g.nodes) (h : ReachP g a b) : b ∈ g.nodes := by
  induction h with
  | refl => exact ha
  | tail hab hbc ih => exact hpc _ ih _ hbc

theorem ReachP_rank (g : PGraph) (ρ : Nat → Nat)
    (hρ : ∀ m ∈ g.nodes, ∀ p ∈ g.parentsOf m, ρ p < ρ m)
    (hpc : parentsClosed g) {a b : Nat} (ha : a ∈ g.nodes) (h : ReachP g a b) :
    ρ b ≤ ρ a := by
  induction h with
  | refl => exact le_refl _
  | tail hab hbc ih =>
    have hmem := ReachP_mem g hpc ha hab
    exact le_trans (le_of_lt (hρ _ hmem _ hbc)) ih

/-- A node is never a proper ancestor through one of its own parents in a
ranked graph. -/
theorem not_ReachP_parent_self (g : PGraph) (ρ : Nat → Nat)
    (hρ : ∀ m ∈ g.nodes, ∀ p ∈ g.parentsOf m, ρ p < ρ m)
    (hpc : parentsClosed g) {n p : Nat} (hn : n ∈ g.nodes)
    (hp : p ∈ g.parentsOf n) : ¬ ReachP g p n := by
  intro hr
  have hpn : p ∈ g.nodes := hpc _ hn _ hp
  have h1 : ρ n ≤ ρ p := ReachP_rank g ρ hρ hpc hpn hr
  have h2 : ρ p < ρ n := hρ _ hn _ hp
  omega

/-- In a down-closed state the ancestors of a clean node are clean
(contrapositive of down-closure across the parent/child symmetry). -/
theorem clean_ancestors (g : PGraph) (hdc : DirtyDownClosed g)
    (hsym : ∀ a b, a ∈ g.parentsOf b ↔ b ∈ g.childrenOf a) {n m : Nat}
    (hclean : g.is_dirty n = false) (hr : ReachP g n m) :
    g.is_dirty m = false := by
  induction hr with
  | refl => exact hclean
  | tail hab hbc ih =>
    rename_i b c
    by_cases hc : g.is_dirty c = true
    · have := hdc c hc b ((hsym c b).mp hbc)
      rw [this] at ih
      cases ih
    · simpa using hc

/-- Behaviour of `prerun` with sufficient fuel (any rank certificate
bounds the recursion depth): the graph structure is untouched; every
node of the ancestor closure ends clean; nodes outside the closure keep
their dirty flag and result; flags only move from dirty to clean; and
down-closure plus the clean-has-result invariant are preserved. -/
theorem prerunF_spec (px : PExec) (ρ : Nat → Nat) :
    ∀ (fuel : Nat) (g : PGraph) (n : Nat),
      (∀ m ∈ g.nodes, ∀ p ∈ g.parentsOf m, ρ p < ρ m) →
      parentsClosed g →
      (∀ a b, a ∈ g.parentsOf b ↔ b ∈ g.childrenOf a) →
      DirtyDownClosed g →
      (∀ m, g.is_dirty m = false → (g.result m).isSome) →
      (∀ m, ReachP g n m → g.plugin m = true) →
      n ∈ g.nodes → ρ n < fuel →
      (prerunF px fuel g n).nodes = g.nodes ∧
      (prerunF px fuel g n).parentsOf = g.parentsOf ∧
      (prerunF px fuel g n).childrenOf = g.childrenOf ∧
      (prerunF px fuel g n).plugin = g.plugin ∧
      (∀ m, ReachP g n m → (prerunF px fuel g n).is_dirty m = false) ∧
      (∀ m, ¬ ReachP g n m →
        (prerunF px fuel g n).is_dirty m = g.is_dirty m ∧
        (prerunF px fuel g n).result m = g.result m) ∧
      (∀ m, (prerunF px fuel g n).is_dirty m = true → g.is_dirty m = true) ∧
      DirtyDownClosed (prerunF px fuel g n) ∧
      (∀ m, (prerunF px fuel g n).is_dirty m = false →
        ((prerunF px fuel g n).result m).isSome) := by
  intro fuel
  induction fuel with
  | zero =>
    intro g n _ _ _ _ _ _ _ hlt
    omega
  | succ fuel ihf =>
    intro g n hρ hpc hsym hdc hcs hplug hn hlt
    by_cases hguard : (g.is_dirty n && g.plugin n) = true
    · -- the node is dirty with a unit: prerun the parents, then execute
      have hpl : g.plugin n = true := (Bool.and_eq_true _ _ |>.mp hguard).2
      have hdn : g.is_dirty n = true := (Bool.and_eq_true _ _ |>.mp hguard).1
      have inner : ∀ (l : List Nat) (acc : PGraph),
          (∀ p ∈ l, p ∈ g.parentsOf n) →
          acc.nodes = g.nodes → acc.parentsOf = g.parentsOf →
          acc.childrenOf = g.childrenOf → acc.plugin = g.plugin →
          (∀ m, acc.is_dirty m = true → g.is_dirty m = true) →
          DirtyDownClosed acc →
          (∀ m, acc.is_dirty m = false → (acc.result m).isSome) →
          (l.foldl (fun acc p => prerunF px fuel acc p) acc).nodes = g.nodes ∧
          (l.foldl (fun acc p => prerunF px fuel acc p) acc).parentsOf = g.parentsOf ∧
          (l.foldl (fun acc p => prerunF px fuel acc p) acc).childrenOf = g.childrenOf ∧
          (l.foldl (fun acc p => prerunF px fuel acc p) acc).plugin = g.plugin ∧
          (∀ p ∈ l, ∀ m, ReachP g p m →
            (l.foldl (fun acc p => prerunF px fuel acc p) acc).is_dirty m = false) ∧
          (∀ m, (l.foldl (fun acc p => prerunF px fuel acc p) acc).is_dirty m = true →
            acc.is_dirty m = true) ∧
          DirtyDownClosed (l.foldl (fun acc p => prerunF px fuel acc p) acc) ∧
          (∀ m, (l.foldl (fun acc p => prerunF px fuel acc p) acc).is_dirty m = false →
            ((l.foldl (fun acc p => prerunF px fuel acc p) acc).result m).isSome) ∧
          (∀ m, (∀ p ∈ l, ¬ ReachP g p m) →
            (l.foldl (fun acc p => prerunF px fuel acc p) acc).is_dirty m = acc.is_dirty m ∧
            (l.foldl (fun acc p => prerunF px fuel acc p) acc).result m = acc.result m) := by
        intro l
        induction l with
        | nil =>
          intro acc _ hn1 hn2 hn3 hn4 honly hddc hcsa
          exact ⟨hn1, hn2, hn3, hn4, by simp, fun m h => h, hddc, hcsa,
            fun m _ => ⟨rfl, rfl⟩⟩
        | cons p rest ihl =>
          intro acc hlsub hn1 hn2 hn3 hn4 honly hddc hcsa
          simp only [List.foldl_cons]
          have hp : p ∈ g.parentsOf n := hlsub p (List.mem_cons_self _ _)
          have hpnodes : p ∈ acc.nodes := by
            rw [hn1]
            exact hpc n hn p hp
          have hρa : ∀ m ∈ acc.nodes, ∀ q ∈ acc.parentsOf m, ρ q < ρ m := by
            rw [hn1, hn2]; exact hρ
          have hpca : parentsClosed acc := by
            unfold parentsClosed
            rw [hn1, hn2]; exact hpc
          have hsyma : ∀ a b, a ∈ acc.parentsOf b ↔ b ∈ acc.childrenOf a := by
            rw [hn2, hn3]; exact hsym
          have hpluga : ∀ m, ReachP acc p m → acc.plugin m = true := by
            intro m hr
            rw [hn4]
            exact hplug m (ReachP_trans g (ReachP_step g hp)
              ((ReachP_congr g acc hn2 p m).mp hr))
          have hrank : ρ p < fuel := by
            have := hρ n hn p hp
            omega
          have hspec := ihf acc p hρa hpca hsyma hddc hcsa hpluga hpnodes hrank
          obtain ⟨e1, e2, e3, e4, e5, e6, e7, e8, e9⟩ := hspec
          set acc' := prerunF px fuel acc p with hacc'
          have hihl := ihl acc' (fun x hx => hlsub x (List.mem_cons_of_mem _ hx))
            (e1.trans hn1) (e2.trans hn2) (e3.trans hn3) (e4.trans hn4)
            (fun m h => honly m (e7 m h)) e8 e9
          obtain ⟨f1, f2, f3, f4, f5, f6, f7, f8, f9⟩ := hihl
          refine ⟨f1, f2, f3, f4, ?_, fun m h => e7 m (f6 m h), f7, f8, ?_⟩
          · intro q hq m hr
            rcases List.mem_cons.mp hq with rfl | hq'
            · -- cleaned by this step; later steps only clean
              have hclean : acc'.is_dirty m = false :=
                e5 m ((ReachP_congr g acc hn2 q m).mpr hr)
              by_cases hd : (rest.foldl (fun acc p => prerunF px fuel acc p) acc').is_dirty m = true
              · rw [f6 m hd] at hclean
                cases hclean
              · simpa using hd
            · exact f5 q hq' m hr
          · intro m hout
            have h1 := f9 m (fun q hq => hout q (List.mem_cons_of_mem _ hq))
            have h2 := e6 m (fun hr => hout p (List.mem_cons_self _ _)
              ((ReachP_congr g acc hn2 p m).mp hr))
            exact ⟨h1.1.trans h2.1, h1.2.trans h2.2⟩
      have hi := inner (g.parentsOf n) g (fun p hp => hp) rfl rfl rfl rfl
        (fun m h => h) hdc hcs
      obtain ⟨i1, i2, i3, i4, i5, i6, i7, i8, i9⟩ := hi
      set g1 := (g.parentsOf n).foldl (fun acc p => prerunF px fuel acc p) g with hg1
      have hg1n : g1.is_dirty n = true := by
        have := i9 n (fun p hp => not_ReachP_parent_self g ρ hρ hpc hn hp)
        rw [this.1, hdn]
      have hg1pl : g1.plugin n = true := by
        rw [show g1.plugin = g.plugin from i4, hpl]
      have hunfold : prerunF px (fuel + 1) g n =
          setDirtyFlag (nodeExecute px g1 n (some PRERUN_ROW_LIMIT)).1 n false := by
        simp only [prerunF]
        rw [if_pos hguard]
      have hexec : (nodeExecute px g1 n (some PRERUN_ROW_LIMIT)).1 =
          { g1 with
            result := Function.update g1.result n
              (some (px n ((g1.parentsOf n).map (fun p => (p, g1.result p)))
                (some PRERUN_ROW_LIMIT))),
            frozen := Function.update g1.frozen n
              ((some PRERUN_ROW_LIMIT).isSome || (g1.childrenOf n).length != 1),
            is_dirty := Function.update g1.is_dirty n false } := by
        unfold nodeExecute
        rw [if_neg (by simp [hg1pl]), if_neg (by simp [hg1n])]
      set gf := prerunF px (fuel + 1) g n with hgf
      have hfnodes : gf.nodes = g.nodes := by rw [hunfold, hexec]; exact i1
      have hfpar : gf.parentsOf = g.parentsOf := by rw [hunfold, hexec]; exact i2
      have hfch : gf.childrenOf = g.childrenOf := by rw [hunfold, hexec]; exact i3
      have hfpl : gf.plugin = g.plugin := by rw [hunfold, hexec]; exact i4
      have hXdirty : ∀ m, m ≠ n →
          (nodeExecute px g1 n (some PRERUN_ROW_LIMIT)).1.is_dirty m = g1.is_dirty m := by
        intro m hm
        rw [hexec]
        exact Function.update_noteq hm _ _
      have hXres : ∀ m, m ≠ n →
          (nodeExecute px g1 n (some PRERUN_ROW_LIMIT)).1.result m = g1.result m := by
        intro m hm
        rw [hexec]
        exact Function.update_noteq hm _ _
      have hfdirty : ∀ m, gf.is_dirty m =
          if m = n then false else g1.is_dirty m := by
        intro m
        by_cases hm : m = n
        · subst hm
          rw [if_pos rfl, hunfold]
          exact Function.update_same _ _ _
        · rw [if_neg hm, hunfold]
          show Function.update
            (nodeExecute px g1 n (some PRERUN_ROW_LIMIT)).1.is_dirty n false m = _
          rw [Function.update_noteq hm]
          exact hXdirty m hm
      have hfres : ∀ m, m ≠ n → gf.result m = g1.result m := by
        intro m hm
        rw [hunfold]
        show (nodeExecute px g1 n (some PRERUN_ROW_LIMIT)).1.result m = _
        exact hXres m hm
      have hfresn : (gf.result n).isSome := by
        rw [hunfold]
        show ((nodeExecute px g1 n (some PRERUN_ROW_LIMIT)).1.result n).isSome
        rw [hexec]
        simp
      refine ⟨hfnodes, hfpar, hfch, hfpl, ?_, ?_, ?_, ?_, ?_⟩
      · -- the whole ancestor closure is clean
        intro m hr
        rcases Relation.ReflTransGen.cases_head hr with heq | ⟨p, hp, hr'⟩
        · rw [← heq, hfdirty n]
          simp
        · rw [hfdirty m]
          by_cases hm : m = n
          · simp [hm]
          · rw [if_neg hm]
            exact i5 p hp m hr'
      · -- nodes outside the closure are untouched
        intro m hr
        have hmn : m ≠ n := fun h => hr (h ▸ Relation.ReflTransGen.refl)
        have hout : ∀ p ∈ g.parentsOf n, ¬ ReachP g p m := by
          intro p hp hpm
          exact hr (ReachP_trans g (ReachP_step g hp) hpm)
        have := i9 m hout
        rw [hfdirty m, if_neg hmn, hfres m hmn]
        exact this
      · -- flags only move from dirty to clean
        intro m h
        rw [hfdirty m] at h
        by_cases hm : m = n
        · rw [if_pos hm] at h; cases h
        · rw [if_neg hm] at h
          exact i6 m h
      · -- down-closure is preserved
        intro x hx c hc
        rw [hfch] at hc
        rw [hfdirty x] at hx
        by_cases hxn : x = n
        · rw [if_pos hxn] at hx; cases hx
        · rw [if_neg hxn] at hx
          have hcd : g1.is_dirty c = true := by
            refine i7 x hx c ?_
            rw [i3]; exact hc
          have hcn : c ≠ n := by
            intro h
            subst h
            have hxpar : x ∈ g.parentsOf c := (hsym x c).mpr hc
            have : g1.is_dirty x = false :=
              i5 x hxpar x Relation.ReflTransGen.refl
            rw [this] at hx
            cases hx
          rw [hfdirty c, if_neg hcn]
          exact hcd
      · -- clean nodes hold a result
        intro m h
        by_cases hm : m = n
        · subst hm; exact hfresn
        · rw [hfdirty m, if_neg hm] at h
          rw [hfres m hm]
          exact i8 m h
    · -- node clean (unit present) or no unit: prerun does nothing;
      -- with the unit present the guard failing means the node is clean,
      -- and in a down-closed state its whole ancestor closure is clean
      have hpl : g.plugin n = true := hplug n Relation.ReflTransGen.refl
      have hdn : g.is_dirty n = false := by
        by_contra hd
        exact hguard (by simp [hpl, (by simpa using hd : g.is_dirty n = true)])
      have hunfold : prerunF px (fuel + 1) g n = g := by
        simp only [prerunF]
        rw [if_neg hguard]
      rw [hunfold]
      exact ⟨rfl, rfl, rfl, rfl,
        fun m hr => clean_ancestors g hdc hsym hdn hr,
        fun m _ => ⟨rfl, rfl⟩, fun m h => h, hdc, hcs⟩

/-- Claim C7, amended: for every acyclic well-formed graph state that is
down-closed, satisfies the data-model invariant (clean nodes hold a
result, spec §3) and in which every node of the prerun target's
ancestor-closure has a unit, `prerun` leaves the whole closure clean
with a result present (possibly an empty sequence). -/
theorem C7_prerun_closure (px : PExec) (g : PGraph) (n : Nat)
    (hnd : g.nodes.Nodup) (hpc : parentsClosed g) (hacy : Acyclic g)
    (hsym : ∀ a b, a ∈ g.parentsOf b ↔ b ∈ g.childrenOf a)
    (hdc : DirtyDownClosed g)
    (hcs : ∀ m, g.is_dirty m = false → (g.result m).isSome)
    (hplug : ∀ m, ReachP g n m → g.plugin m = true)
    (hn : n ∈ g.nodes) :
    ∀ m, ReachP g n m → (prerun px g n).is_dirty m = false ∧
      ((prerun px g n).result m).isSome := by
  obtain ⟨ρ, hρ, hbound⟩ := exists_rank g hnd hpc hacy
  have hlt : ρ n < g.nodes.length + 1 := by
    have := hbound n hn
    omega
  obtain ⟨-, -, -, -, h5, -, -, -, h9⟩ :=
    prerunF_spec px ρ (g.nodes.length + 1) g n hρ hpc hsym hdc hcs hplug hn hlt
  intro m hr
  exact ⟨h5 m hr, h9 m (h5 m hr)⟩

theorem gEdge_rank : ∀ b, ∀ a ∈ gEdge.parentsOf b, a < b := by
  intro b a ha
  by_cases h1 : b = 1
  · subst h1; simp [gEdge] at ha; omega
  · simp [gEdge, h1] at ha

/-- Witness for `C7_prerun_closure`: prerunning the sink of the fresh
two-node edge cleans both nodes and leaves both with results. -/
theorem C7_prerun_closure_witness :
    ReachP gEdge 1 0 ∧ ReachP gEdge 1 1 ∧
    ((prerun pxOne gEdge 1).is_dirty 0 = false ∧
      ((prerun pxOne gEdge 1).result 0).isSome) ∧
    ((prerun pxOne gEdge 1).is_dirty 1 = false ∧
      ((prerun pxOne gEdge 1).result 1).isSome) := by
  have happ := C7_prerun_closure pxOne gEdge 1 (by decide)
    (by
      intro m hm p hp
      by_cases h1 : m = 1
      · subst h1; simp [gEdge] at hp; simp [gEdge, hp]
      · simp [gEdge, h1] at hp)
    (acyclic_of_rank gEdge (fun x => x) gEdge_rank)
    (by
      intro a b
      constructor
      · intro h
        by_cases h1 : b = 1
        · subst h1; simp [gEdge] at h; simp [gEdge, h]
        · simp [gEdge, h1] at h
      · intro h
        by_cases h0 : a = 0
        · subst h0; simp [gEdge] at h; simp [gEdge, h]
        · simp [gEdge, h0] at h)
    (fun m _ c _ => rfl)
    (by
      intro m hm
      simp [gEdge] at hm)
    (fun m _ => rfl)
    (by decide)
  exact ⟨ReachP_step gEdge (by decide), Relation.ReflTransGen.refl,
    happ 0 (ReachP_step gEdge (by decide)), happ 1 Relation.ReflTransGen.refl⟩

theorem gChain_rank : ∀ b, ∀ a ∈ gChain.parentsOf b, a < b := by
  intro b a ha
  by_cases h1 : b = 1
  · subst h1; simp [gChain] at ha; omega
  by_cases h2 : b = 2
  · subst h2; simp [gChain] at ha; omega
  · simp [gChain, h1, h2] at ha

/-- Claim C7 as stated is false on the code, in two ways.  First, on the
acyclic chain `0 → 1 → 2` whose only source (node 0) has a unit but
whose middle node is a placeholder, `prerun(2)` skips the placeholder
entirely: node 1 — in node 2's ancestor-closure — stays dirty with no
result.  Second, even with units everywhere, a unit may produce an empty
sequence: after `prerun(0)` on the single-node graph the node is clean
but its result is the *empty* sequence, not a non-empty one. -/
theorem C7_prerun_counterexample :
    Acyclic gChain ∧
    (∀ m ∈ gChain.nodes, (gChain.parentsOf m).isEmpty = true →
      gChain.plugin m = true) ∧
    ReachP gChain 2 1 ∧
    (prerun pxOne gChain 2).is_dirty 1 = true ∧
    (prerun pxOne gChain 2).result 1 = none ∧
    gSingle.plugin 0 = true ∧
    (prerun pxEmpty gSingle 0).is_dirty 0 = false ∧
    (prerun pxEmpty gSingle 0).result 0 = some [] :=
  ⟨acyclic_of_rank gChain (fun x => x) gChain_rank, by decide,
   ReachP_step gChain (by decide), by decide, by decide, rfl, by decide, by decide⟩

/-- Claim C9: on the diamond, `tidy` assigns strata 0, 1, 1, 2 to
A, B, C, D and places B and C at distinct x positions within stratum 1
(positions are stored as `(y, x)` pairs; the x is the second
component). -/
theorem C9_tidy_diamond :
    (tidyStrata gDiamond).map (fun st => (st 0, st 1, st 2, st 3)) =
      some (some 0, some 1, some 1, some 2) ∧
    (tidy gDiamond).map (fun pm => ((pm 1).map Prod.snd, (pm 2).map Prod.snd)) =
      some (some ⟨1, 4⟩, some ⟨3, 4⟩) ∧
    ¬ fracEq ⟨1, 4⟩ ⟨3, 4⟩ := by
  refine ⟨by decide, by decide, by unfold fracEq; decide⟩

/-! ## Helper lemmas for the layout proofs -/
theorem optMapM_none {α β : Type} (f : α → Option β) :
    ∀ (l : List α) (x : α), x ∈ l → f x = none → optMapM f l = none := by
  intro l
  induction l with
  | nil => intro x hx; simp at hx
  | cons a rest ih =>
    intro x hx hfx
    rcases List.mem_cons.mp hx with rfl | hx'
    · simp [optMapM, hfx]
    · cases hfa : f a with
      | none => simp [optMapM, hfa]
      | some v => simp [optMapM, hfa, ih x hx' hfx]

theorem optMapM_some {α β : Type} (f : α → Option β) :
    ∀ (l : List α), (∀ x ∈ l, (f x).isSome) →
      ∃ vs, optMapM f l = some vs ∧ vs.length = l.length ∧
        (∀ x ∈ l, ∃ v, f x = some v ∧ v ∈ vs) ∧
        (∀ v ∈ vs, ∃ x ∈ l, f x = some v) := by
  intro l
  induction l with
  | nil => intro _; exact ⟨[], rfl, by simp, by simp, by simp⟩
  | cons a rest ih =>
    intro h
    obtain ⟨va, hva⟩ := Option.isSome_iff_exists.mp (h a (List.mem_cons_self _ _))
    obtain ⟨vs, hvs, hlen, hmem1, hmem2⟩ :=
      ih (fun x hx => h x (List.mem_cons_of_mem _ hx))
    refine ⟨va :: vs, by simp [optMapM, hva, hvs], by simp [hlen], ?_, ?_⟩
    · intro x hx
      rcases List.mem_cons.mp hx with rfl | hx'
      · exact ⟨va, hva, List.mem_cons_self _ _⟩
      · obtain ⟨v, hv1, hv2⟩ := hmem1 x hx'
        exact ⟨v, hv1, List.mem_cons_of_mem _ hv2⟩
    · intro v hv
      rcases List.mem_cons.mp hv with rfl | hv'
      · exact ⟨a, List.mem_cons_self _ _, hva⟩
      · obtain ⟨x, hx1, hx2⟩ := hmem2 v hv'
        exact ⟨x, List.mem_cons_of_mem _ hx1, hx2⟩

theorem optMapM_map {α β : Type} (f : α → Option β) (gm : α → β) :
    ∀ (l : List α), (∀ x ∈ l, f x = some (gm x)) → optMapM f l = some (l.map gm) := by
  intro l
  induction l with
  | nil => intro _; simp [optMapM]
  | cons a rest ih =>
    intro h
    simp [optMapM, h a (List.mem_cons_self _ _),
      ih (fun x hx => h x (List.mem_cons_of_mem _ hx))]

theorem pyEnum_mem : ∀ (l : List Nat) (k : Nat) (e : Nat × Nat),
    e ∈ pyEnum k l → e.2 ∈ l := by
  intro l
  induction l with
  | nil => intro k e he; simp [pyEnum] at he
  | cons a rest ih =>
    intro k e he
    rcases List.mem_cons.mp he with rfl | he'
    · simp
    · exact List.mem_cons_of_mem _ (ih (k + 1) e he')

theorem pyEnum_mem_of_mem : ∀ (l : List Nat) (k : Nat) (x : Nat),
    x ∈ l → ∃ i, (i, x) ∈ pyEnum k l := by
  intro l
  induction l with
  | nil => intro k x hx; simp at hx
  | cons a rest ih =>
    intro k x hx
    rcases List.mem_cons.mp hx with rfl | hx'
    · exact ⟨k, List.mem_cons_self _ _⟩
    · obtain ⟨i, hi⟩ := ih (k + 1) x hx'
      exact ⟨i, List.mem_cons_of_mem _ hi⟩

theorem pyEnumS_mem : ∀ (l : List ((Frac × Frac × Nat) × Nat)) (k : Nat)
    (e : Nat × (Frac × Frac × Nat) × Nat), e ∈ pyEnumS k l → e.2 ∈ l := by
  intro l
  induction l with
  | nil => intro k e he; simp [pyEnumS] at he
  | cons a rest ih =>
    intro k e he
    rcases List.mem_cons.mp he with rfl | he'
    · simp
    · exact List.mem_cons_of_mem _ (ih (k + 1) e he')

theorem insertSorted_mem (x y : (Frac × Frac × Nat) × Nat) :
    ∀ (l : List ((Frac × Frac × Nat) × Nat)),
      y ∈ insertSorted x l → y = x ∨ y ∈ l := by
  intro l
  induction l with
  | nil => intro h; simpa [insertSorted] using h
  | cons a rest ih =>
    intro h
    simp only [insertSorted] at h
    by_cases hle : keyLe x.1 a.1
    · rw [if_pos hle] at h
      rcases List.mem_cons.mp h with rfl | h' <;> simp_all
    · rw [if_neg hle] at h
      rcases List.mem_cons.mp h with rfl | h'
      · simp
      · rcases ih h' with rfl | hh <;> simp_all

theorem sortSNodes_mem (y : (Frac × Frac × Nat) × Nat) :
    ∀ (l : List ((Frac × Frac × Nat) × Nat)), y ∈ sortSNodes l → y ∈ l := by
  intro l
  induction l with
  | nil => intro h; simp [sortSNodes] at h
  | cons a rest ih =>
    intro h
    simp only [sortSNodes] at h
    rcases insertSorted_mem a y (sortSNodes rest) h with rfl | h'
    · exact List.mem_cons_self _ _
    · exact List.mem_cons_of_mem _ (ih h')

/-- If some listed pass fails from every invariant state, and the other
passes preserve the invariant, the whole pass loop fails. -/
theorem foldlM_abort {σ ι : Type} (f : σ → ι → Option σ) (P : σ → Prop) (x : ι) :
    ∀ (l : List ι) (st : σ), x ∈ l → P st →
      (∀ st' i st'', P st' → i ≠ x → f st' i = some st'' → P st'') →
      (∀ st', P st' → f st' x = none) →
      l.foldlM f st = none := by
  intro l
  induction l with
  | nil => intro st hx; simp at hx
  | cons a rest ih =>
    intro st hx hP hpres hfail
    rcases List.mem_cons.mp hx with rfl | hx'
    · simp [List.foldlM_cons, hfail st hP]
    · cases hfa : f st a with
      | none => simp [List.foldlM_cons, hfa]
      | some st' =>
        by_cases hax : a = x
        · subst hax
          rw [hfail st hP] at hfa
          cases hfa
        · simp only [List.foldlM_cons, hfa, Option.bind_eq_bind, Option.some_bind]
          exact ih st' hx' (hpres st a st' hP hax hfa) hpres hfail

theorem intMax?_spec (l : List Int) (a : Int) (h : l.max? = some a) :
    a ∈ l ∧ ∀ b ∈ l, b ≤ a := by
  have anti : Std.Antisymm (fun x y : Int => x ≤ y) :=
    ⟨@fun a b h1 h2 => le_antisymm h1 h2⟩
  exact (List.max?_eq_some_iff (fun x => le_refl x) (fun x y => max_choice x y)
    (fun x y z => max_le_iff)).mp h

theorem intMax?_isSome (l : List Int) (h : l ≠ []) : (l.max?).isSome := by
  cases hl : l.max? with
  | none => exact absurd (List.max?_eq_none_iff.mp hl) h
  | some a => rfl

theorem intMin?_spec (l : List Int) (a : Int) (h : l.min? = some a) :
    a ∈ l ∧ ∀ b ∈ l, a ≤ b := by
  have anti : Std.Antisymm (fun x y : Int => x ≤ y) :=
    ⟨@fun a b h1 h2 => le_antisymm h1 h2⟩
  exact (List.min?_eq_some_iff (fun x => le_refl x) (fun x y => min_choice x y)
    (fun x y z => le_min_iff)).mp h

theorem intMin?_isSome (l : List Int) (h : l ≠ []) : (l.min?).isSome := by
  cases hl : l.min? with
  | none => exact absurd (List.min?_eq_none_iff.mp hl) h
  | some a => rfl

theorem tidyInitStrata_cons_source (g : PGraph) (n : Nat) (rest : List Nat)
    (st : Nat → Option Int) (hpe : (g.parentsOf n).isEmpty = true) :
    tidyInitStrata g (n :: rest) st =
      tidyInitStrata g rest (Function.update st n (some 0)) := by
  simp only [tidyInitStrata]
  rw [if_pos hpe]

theorem tidyInitStrata_cons_parents (g : PGraph) (n : Nat) (rest : List Nat)
    (st : Nat → Option Int) (vs : List Int) (mx : Int)
    (hpe : ¬ (g.parentsOf n).isEmpty = true)
    (hvs : optMapM st (g.parentsOf n) = some vs) (hmx : vs.max? = some mx) :
    tidyInitStrata g (n :: rest) st =
      tidyInitStrata g rest (Function.update st n (some (mx + 1))) := by
  simp only [tidyInitStrata]
  rw [if_neg hpe, hvs]
  show (match vs.max? with
    | none => none
    | some mx => tidyInitStrata g rest (Function.update st n (some (mx + 1)))) = _
  rw [hmx]

/-- The first stratum pass succeeds when scanned in an order that puts
parents first, assigns every scanned node a stratum of the shape
`initValOk`, and never rewrites an existing entry. -/
theorem tidyInitStrata_spec (g : PGraph) :
    ∀ (l : List Nat) (st : Nat → Option Int),
      l.Nodup →
      (∀ n ∈ l, st n = none) →
      (∀ (a b : List Nat) (n : Nat), l = a ++ n :: b →
        ∀ p ∈ g.parentsOf n, p ∈ a ∨ (st p).isSome) →
      (∀ m v, st m = some v → 0 ≤ v) →
      ∃ st', tidyInitStrata g l st = some st' ∧
        (∀ m, m ∉ l → st' m = st m) ∧
        (∀ m v, st m = some v → st' m = some v) ∧
        (∀ m v, st' m = some v → 0 ≤ v) ∧
        (∀ n ∈ l, initValOk g st' n) := by
  intro l
  induction l with
  | nil =>
    intro st _ _ _ hnn
    exact ⟨st, rfl, fun m _ => rfl, fun m v h => h, hnn, by simp⟩
  | cons n rest ih =>
    intro st hnd hnone hready hnn
    have hpsome : ∀ p ∈ g.parentsOf n, (st p).isSome := by
      intro p hp
      rcases hready [] rest n rfl p hp with h | h
      · simp at h
      · exact h
    by_cases hpe : (g.parentsOf n).isEmpty
    · -- a source: stratum 0
      set st1 := Function.update st n (some 0) with hst1
      have hst1n : st1 n = some 0 := by simp [hst1]
      have hst1o : ∀ m, m ≠ n → st1 m = st m := by
        intro m hm
        simp [hst1, Function.update_noteq hm]
      have hone : ∀ m v, st m = some v → st1 m = some v := by
        intro m v h
        have hmn : m ≠ n := by
          intro he
          rw [he, hnone n (List.mem_cons_self _ _)] at h
          cases h
        rw [hst1o m hmn]; exact h
      obtain ⟨st', hrun, hout, hstab, hnn', hok⟩ := ih st1
        (List.nodup_cons.mp hnd).2
        (by
          intro m hm
          have hmn : m ≠ n := fun he => (List.nodup_cons.mp hnd).1 (he ▸ hm)
          rw [hst1o m hmn]
          exact hnone m (List.mem_cons_of_mem _ hm))
        (by
          intro a b m hab p hp
          rcases hready (n :: a) b m (by rw [hab]; rfl) p hp with h | h
          · rcases List.mem_cons.mp h with rfl | h'
            · right; simp [hst1]
            · left; exact h'
          · right
            cases hps : st p with
            | none => rw [hps] at h; cases h
            | some w => rw [hone p w hps]; rfl)
        (by
          intro m v h
          by_cases hm : m = n
          · subst hm
            rw [hst1n] at h
            cases h
            omega
          · rw [hst1o m hm] at h
            exact hnn m v h)
      refine ⟨st', ?_, ?_, ?_, hnn', ?_⟩
      · rw [tidyInitStrata_cons_source g n rest st hpe, ← hst1]
        exact hrun
      · intro m hm
        have hmn : m ≠ n := fun he => hm (he ▸ List.mem_cons_self _ _)
        have hmr : m ∉ rest := fun he => hm (List.mem_cons_of_mem _ he)
        rw [hout m hmr, hst1o m hmn]
      · intro m v h
        exact hstab m v (hone m v h)
      · intro m hm
        rcases List.mem_cons.mp hm with rfl | hm'
        · exact ⟨0, hstab m 0 hst1n, le_refl _, Or.inl hpe⟩
        · exact hok m hm'
    · -- a node with parents: one past their maximum
      obtain ⟨vs, hvs, hlen, hmem1, hmem2⟩ := optMapM_some st (g.parentsOf n) hpsome
      have hvsne : vs ≠ [] := by
        intro h
        rw [h] at hlen
        have : g.parentsOf n = [] := List.length_eq_zero.mp hlen.symm
        rw [this] at hpe
        simp at hpe
      obtain ⟨mx, hmx⟩ := Option.isSome_iff_exists.mp (intMax?_isSome vs hvsne)
      obtain ⟨hmxmem, hmxub⟩ := intMax?_spec vs mx hmx
      have hmx0 : 0 ≤ mx := by
        obtain ⟨x, hx1, hx2⟩ := hmem2 mx hmxmem
        exact hnn x mx hx2
      set st1 := Function.update st n (some (mx + 1)) with hst1
      have hst1n : st1 n = some (mx + 1) := by simp [hst1]
      have hst1o : ∀ m, m ≠ n → st1 m = st m := by
        intro m hm
        simp [hst1, Function.update_noteq hm]
      have hone : ∀ m v, st m = some v → st1 m = some v := by
        intro m v h
        have hmn : m ≠ n := by
          intro he
          rw [he, hnone n (List.mem_cons_self _ _)] at h
          cases h
        rw [hst1o m hmn]; exact h
      obtain ⟨st', hrun, hout, hstab, hnn', hok⟩ := ih st1
        (List.nodup_cons.mp hnd).2
        (by
          intro m hm
          have hmn : m ≠ n := fun he => (List.nodup_cons.mp hnd).1 (he ▸ hm)
          rw [hst1o m hmn]
          exact hnone m (List.mem_cons_of_mem _ hm))
        (by
          intro a b m hab p hp
          rcases hready (n :: a) b m (by rw [hab]; rfl) p hp with h | h
          · rcases List.mem_cons.mp h with rfl | h'
            · right; simp [hst1]
            · left; exact h'
          · right
            cases hps : st p with
            | none => rw [hps] at h; cases h
            | some w => rw [hone p w hps]; rfl)
        (by
          intro m v h
          by_cases hm : m = n
          · subst hm
            rw [hst1n] at h
            cases h
            omega
          · rw [hst1o m hm] at h
            exact hnn m v h)
      refine ⟨st', ?_, ?_, ?_, hnn', ?_⟩
      · rw [tidyInitStrata_cons_parents g n rest st vs mx hpe hvs hmx, ← hst1]
        exact hrun
      · intro m hm
        have hmn : m ≠ n := fun he => hm (he ▸ List.mem_cons_self _ _)
        have hmr : m ∉ rest := fun he => hm (List.mem_cons_of_mem _ he)
        rw [hout m hmr, hst1o m hmn]
      · intro m v h
        exact hstab m v (hone m v h)
      · intro m hm
        rcases List.mem_cons.mp hm with rfl | hm'
        · refine ⟨mx + 1, hstab m (mx + 1) hst1n, by omega, Or.inr ⟨?_, ?_⟩⟩
          · obtain ⟨p, hp1, hp2⟩ := hmem2 mx hmxmem
            refine ⟨p, hp1, ?_⟩
            have : st' p = some mx := hstab p mx (hone p mx hp2)
            simpa using this
          · intro p hp
            obtain ⟨w, hw1, hw2⟩ := hmem1 p hp
            refine ⟨w, hstab p w (hone p w hw1), ?_⟩
            have := hmxub w hw2
            omega
        · exact hok m hm'

theorem tidyShuffle_cons_childless (g : PGraph) (n : Nat) (rest : List Nat)
    (st : Nat → Option Int) (hce : (g.childrenOf n).isEmpty = true) :
    tidyShuffle g (n :: rest) st = tidyShuffle g rest st := by
  simp only [tidyShuffle]
  rw [if_pos hce]

theorem tidyShuffle_cons_parentless (g : PGraph) (n : Nat) (rest : List Nat)
    (st : Nat → Option Int) (cvs : List Int) (mn : Int)
    (hce : ¬ (g.childrenOf n).isEmpty = true)
    (hcvs : optMapM st (g.childrenOf n) = some cvs) (hmn : cvs.min? = some mn)
    (hpl : (g.parentsOf n).length = 0) :
    tidyShuffle g (n :: rest) st =
      tidyShuffle g rest (Function.update st n (some (mn - 1))) := by
  simp only [tidyShuffle]
  rw [if_neg hce, hcvs]
  show (match cvs.min? with
    | none => none
    | some mn =>
      if (g.parentsOf n).length = 0 then
        tidyShuffle g rest (Function.update st n (some (mn - 1)))
      else
        match optMapM st (g.parentsOf n) with
        | none => none
        | some pvs =>
          match pvs.max? with
          | none => none
          | some mx =>
            tidyShuffle g rest
              (Function.update st n (some ((mn + mx) / 2)))) = _
  rw [hmn]
  show (if (g.parentsOf n).length = 0 then
      tidyShuffle g rest (Function.update st n (some (mn - 1)))
    else
      match optMapM st (g.parentsOf n) with
      | none => none
      | some pvs =>
        match pvs.max? with
        | none => none
        | some mx =>
          tidyShuffle g rest
            (Function.update st n (some ((mn + mx) / 2)))) = _
  rw [if_pos hpl]

theorem tidyShuffle_cons_mid (g : PGraph) (n : Nat) (rest : List Nat)
    (st : Nat → Option Int) (cvs pvs : List Int) (mn mx : Int)
    (hce : ¬ (g.childrenOf n).isEmpty = true)
    (hcvs : optMapM st (g.childrenOf n) = some cvs) (hmn : cvs.min? = some mn)
    (hpl : ¬ (g.parentsOf n).length = 0)
    (hpvs : optMapM st (g.parentsOf n) = some pvs) (hmx : pvs.max? = some mx) :
    tidyShuffle g (n :: rest) st =
      tidyShuffle g rest (Function.update st n (some ((mn + mx) / 2))) := by
  simp only [tidyShuffle]
  rw [if_neg hce, hcvs]
  show (match cvs.min? with
    | none => none
    | some mn =>
      if (g.parentsOf n).length = 0 then
        tidyShuffle g rest (Function.update st n (some (mn - 1)))
      else
        match optMapM st (g.parentsOf n) with
        | none => none
        | some pvs =>
          match pvs.max? with
          | none => none
          | some mx =>
            tidyShuffle g rest
              (Function.update st n (some ((mn + mx) / 2)))) = _
  rw [hmn]
  show (if (g.parentsOf n).length = 0 then
      tidyShuffle g rest (Function.update st n (some (mn - 1)))
    else
      match optMapM st (g.parentsOf n) with
      | none => none
      | some pvs =>
        match pvs.max? with
        | none => none
        | some mx =>
          tidyShuffle g rest
            (Function.update st n (some ((mn + mx) / 2)))) = _
  rw [if_neg hpl, hpvs]
  show (match pvs.max? with
    | none => none
    | some mx =>
      tidyShuffle g rest
        (Function.update st n (some ((mn + mx) / 2)))) = _
  rw [hmx]

/-- The shuffle pass, run over the reversed traversal order, succeeds
and can only move a node's stratum up (never below its initial value):
children are processed before their parents, so a childed node sits
strictly below the minimum of its children's current strata. -/
theorem tidyShuffle_spec (g : PGraph) (order : List Nat)
    (stInit : Nat → Option Int)
    (hsym : ∀ a b, a ∈ g.parentsOf b ↔ b ∈ g.childrenOf a)
    (hacy : Acyclic g)
    (hccord : ∀ n ∈ order, ∀ c ∈ g.childrenOf n, c ∈ order)
    (hordnd : order.Nodup)
    (hord : ∀ (a b : List Nat) (m : Nat), order = a ++ m :: b →
      ∀ p ∈ g.parentsOf m, p ∈ a)
    (hinit_some : ∀ m ∈ order, (stInit m).isSome)
    (hinit_ok : ∀ m ∈ order, initValOk g stInit m) :
    ∀ (l done : List Nat) (st : Nat → Option Int),
      order.reverse = done ++ l →
      (∀ m ∈ l, st m = stInit m) →
      (∀ m, (st m).isSome ↔ (stInit m).isSome) →
      (∀ m v w, stInit m = some v → st m = some w → v ≤ w) →
      ∃ st', tidyShuffle g l st = some st' ∧
        (∀ m, (st' m).isSome ↔ (stInit m).isSome) ∧
        (∀ m v w, stInit m = some v → st' m = some w → v ≤ w) := by
  intro l
  induction l with
  | nil =>
    intro done st _ _ h2 h3
    exact ⟨st, rfl, h2, h3⟩
  | cons n rest ih =>
    intro done st hrev h1 h2 h3
    have horder : order = rest.reverse ++ n :: done.reverse := by
      have := congrArg List.reverse hrev
      simpa [List.reverse_append] using this
    have hnorder : n ∈ order := by
      rw [horder]; simp
    have hndorder : (rest.reverse ++ n :: done.reverse).Nodup := horder ▸ hordnd
    have hn_nrev : n ∉ rest.reverse := by
      rcases List.nodup_append.mp hndorder with ⟨-, -, hdisj⟩
      intro h
      exact hdisj h (List.mem_cons_self _ _)
    have hn_rest : n ∉ rest := fun h => hn_nrev (List.mem_reverse.mpr h)
    have hrev' : order.reverse = (done ++ [n]) ++ rest := by
      rw [hrev]; simp
    by_cases hce : (g.childrenOf n).isEmpty = true
    · rw [tidyShuffle_cons_childless g n rest st hce]
      exact ih (done ++ [n]) st hrev'
        (fun m hm => h1 m (List.mem_cons_of_mem _ hm)) h2 h3
    · -- children already shuffled, parents untouched
      obtain ⟨vn, hvn, hvn0, hvnshape⟩ := hinit_ok n hnorder
      have hcne : ∀ c ∈ g.childrenOf n, c ≠ n := by
        intro c hc he
        exact hacy n (Relation.TransGen.single ((hsym n n).mpr (he ▸ hc)))
      have hcnotrest : ∀ c ∈ g.childrenOf n, c ∉ rest := by
        intro c hc hcr
        obtain ⟨u, w, huw⟩ := List.append_of_mem (List.mem_reverse.mpr hcr)
        have horder2 : order = u ++ c :: (w ++ n :: done.reverse) := by
          rw [horder, huw]
          simp
        have hpu := hord u _ c horder2 n ((hsym n c).mpr hc)
        have : n ∈ rest.reverse := by
          rw [huw]
          exact List.mem_append_left _ hpu
        exact hn_nrev this
      have hcsome : ∀ c ∈ g.childrenOf n, (st c).isSome := by
        intro c hc
        exact (h2 c).mpr (hinit_some c (hccord n hnorder c hc))
      obtain ⟨cvs, hcvs, hclen, hcmem1, hcmem2⟩ :=
        optMapM_some st (g.childrenOf n) hcsome
      have hchne : g.childrenOf n ≠ [] := by
        intro h
        rw [h] at hce
        simp at hce
      have hcvsne : cvs ≠ [] := by
        intro h
        rw [h] at hclen
        exact hchne (List.length_eq_zero.mp hclen.symm)
      obtain ⟨mn, hmn⟩ := Option.isSome_iff_exists.mp (intMin?_isSome cvs hcvsne)
      obtain ⟨hmnmem, hmnlb⟩ := intMin?_spec cvs mn hmn
      -- the minimum child stratum is strictly above this node's initial one
      have hmnbound : vn + 1 ≤ mn := by
        obtain ⟨c0, hc0mem, hc0val⟩ := hcmem2 mn hmnmem
        obtain ⟨vc, hvc, hvc0, hvcshape⟩ :=
          hinit_ok c0 (hccord n hnorder c0 hc0mem)
        have hnc0 : n ∈ g.parentsOf c0 := (hsym n c0).mpr hc0mem
        rcases hvcshape with hemp | ⟨-, hub⟩
        · rw [List.isEmpty_iff] at hemp
          rw [hemp] at hnc0
          simp at hnc0
        · obtain ⟨w, hw1, hw2⟩ := hub n hnc0
          rw [hvn] at hw1
          obtain rfl : vn = w := by
            injection hw1
          have : vc ≤ mn := h3 c0 vc mn hvc hc0val
          omega
      by_cases hplz : (g.parentsOf n).length = 0
      · -- a parentless node moves to one below its children
        set st1 := Function.update st n (some (mn - 1)) with hst1
        have hst1step : ∀ m ∈ rest, st1 m = stInit m := by
          intro m hm
          have hmn' : m ≠ n := fun he => hn_rest (he ▸ hm)
          rw [hst1, Function.update_noteq hmn']
          exact h1 m (List.mem_cons_of_mem _ hm)
        have hst1some : ∀ m, (st1 m).isSome ↔ (stInit m).isSome := by
          intro m
          by_cases hm : m = n
          · subst hm
            simp [hst1, Option.isSome_iff_exists.mpr ⟨vn, hvn⟩]
          · rw [hst1, Function.update_noteq hm]
            exact h2 m
        have hst1ge : ∀ m v w, stInit m = some v → st1 m = some w → v ≤ w := by
          intro m v w hv hw
          by_cases hm : m = n
          · subst hm
            rw [hvn] at hv
            rw [hst1, Function.update_same] at hw
            obtain rfl : vn = v := by injection hv
            obtain rfl : mn - 1 = w := by injection hw
            omega
          · rw [hst1, Function.update_noteq hm] at hw
            exact h3 m v w hv hw
        obtain ⟨st', hrun, hc2, hc3⟩ := ih (done ++ [n]) st1 hrev'
          hst1step hst1some hst1ge
        refine ⟨st', ?_, hc2, hc3⟩
        rw [tidyShuffle_cons_parentless g n rest st cvs mn hce hcvs hmn hplz,
          ← hst1]
        exact hrun
      · -- a node with parents moves to the floored midpoint
        have hpar_rest : ∀ p ∈ g.parentsOf n, p ∈ rest := by
          intro p hp
          exact List.mem_reverse.mp (hord (rest.reverse) (done.reverse) n horder p hp)
        have hpsome : ∀ p ∈ g.parentsOf n, (st p).isSome := by
          intro p hp
          rw [h1 p (List.mem_cons_of_mem _ (hpar_rest p hp))]
          refine hinit_some p ?_
          rw [horder]
          exact List.mem_append_left _ (List.mem_reverse.mpr (hpar_rest p hp))
        obtain ⟨pvs, hpvs, hplen, hpmem1, hpmem2⟩ :=
          optMapM_some st (g.parentsOf n) hpsome
        have hpvsne : pvs ≠ [] := by
          intro h
          rw [h] at hplen
          exact hplz hplen.symm
        obtain ⟨mx, hmx⟩ := Option.isSome_iff_exists.mp (intMax?_isSome pvs hpvsne)
        obtain ⟨hmxmem, hmxub⟩ := intMax?_spec pvs mx hmx
        -- some parent still carries the initial stratum `vn - 1`
        have hmxbound : vn - 1 ≤ mx := by
          rcases hvnshape with hemp | ⟨⟨pstar, hpstar, hpstarval⟩, -⟩
          · rw [List.isEmpty_iff] at hemp
            rw [hemp] at hplz
            simp at hplz
          · have hstp : st pstar = some (vn - 1) := by
              rw [h1 pstar (List.mem_cons_of_mem _ (hpar_rest pstar hpstar))]
              exact hpstarval
            obtain ⟨w, hw1, hw2⟩ := hpmem1 pstar hpstar
            rw [hstp] at hw1
            obtain rfl : vn - 1 = w := by injection hw1
            exact hmxub _ hw2
        have hmid : vn ≤ (mn + mx) / 2 := by
          have hsum : 2 * vn ≤ mn + mx := by omega
          have h1' := Int.ediv_le_ediv (show (0:Int) < 2 by omega) hsum
          rwa [Int.mul_ediv_cancel_left _ (by omega)] at h1'
        set st1 := Function.update st n (some ((mn + mx) / 2)) with hst1
        have hst1step : ∀ m ∈ rest, st1 m = stInit m := by
          intro m hm
          have hmn' : m ≠ n := fun he => hn_rest (he ▸ hm)
          rw [hst1, Function.update_noteq hmn']
          exact h1 m (List.mem_cons_of_mem _ hm)
        have hst1some : ∀ m, (st1 m).isSome ↔ (stInit m).isSome := by
          intro m
          by_cases hm : m = n
          · subst hm
            simp [hst1, Option.isSome_iff_exists.mpr ⟨vn, hvn⟩]
          · rw [hst1, Function.update_noteq hm]
            exact h2 m
        have hst1ge : ∀ m v w, stInit m = some v → st1 m = some w → v ≤ w := by
          intro m v w hv hw
          by_cases hm : m = n
          · subst hm
            rw [hvn] at hv
            rw [hst1, Function.update_same] at hw
            obtain rfl : vn = v := by injection hv
            obtain rfl : (mn + mx) / 2 = w := by injection hw
            omega
          · rw [hst1, Function.update_noteq hm] at hw
            exact h3 m v w hv hw
        obtain ⟨st', hrun, hc2, hc3⟩ := ih (done ++ [n]) st1 hrev'
          hst1step hst1some hst1ge
        refine ⟨st', ?_, hc2, hc3⟩
        rw [tidyShuffle_cons_mid g n rest st cvs pvs mn mx hce hcvs hmn hplz
          hpvs hmx, ← hst1]
        exact hrun

theorem optMapM_mem_rev {α β : Type} (f : α → Option β) :
    ∀ (l : List α) (vs : List β), optMapM f l = some vs →
      ∀ v ∈ vs, ∃ x ∈ l, f x = some v := by
  intro l
  induction l with
  | nil =>
    intro vs h v hv
    rw [show optMapM f [] = some [] from rfl] at h
    obtain rfl : ([] : List β) = vs := by injection h
    simp at hv
  | cons a rest ih =>
    intro vs h v hv
    simp only [optMapM] at h
    cases hfa : f a with
    | none => rw [hfa] at h; cases h
    | some va =>
      rw [hfa] at h
      cases hrest : optMapM f rest with
      | none => rw [hrest] at h; cases h
      | some ws =>
        rw [hrest] at h
        obtain rfl : va :: ws = vs := by injection h
        rcases List.mem_cons.mp hv with rfl | hv'
        · exact ⟨a, List.mem_cons_self _ _, hfa⟩
        · obtain ⟨x, hx1, hx2⟩ := ih ws hrest v hv'
          exact ⟨x, List.mem_cons_of_mem _ hx1, hx2⟩

theorem optMapM_mem_fwd {α β : Type} (f : α → Option β) :
    ∀ (l : List α) (vs : List β), optMapM f l = some vs →
      ∀ x ∈ l, ∃ v, f x = some v ∧ v ∈ vs := by
  intro l
  induction l with
  | nil => intro vs h x hx; simp at hx
  | cons a rest ih =>
    intro vs h x hx
    simp only [optMapM] at h
    cases hfa : f a with
    | none => rw [hfa] at h; cases h
    | some va =>
      rw [hfa] at h
      cases hrest : optMapM f rest with
      | none => rw [hrest] at h; cases h
      | some ws =>
        rw [hrest] at h
        obtain rfl : va :: ws = vs := by injection h
        rcases List.mem_cons.mp hx with rfl | hx'
        · exact ⟨va, hfa, List.mem_cons_self _ _⟩
        · obtain ⟨v, hv1, hv2⟩ := ih ws hrest x hx'
          exact ⟨v, hv1, List.mem_cons_of_mem _ hv2⟩

theorem passEntry_none (g : PGraph) (ts : TidyState) (t : Nat × Nat × Int)
    (h : ts.posMap t.2.1 = none) : passEntry g ts t = none := by
  unfold passEntry
  cases ha : (if (g.parentsOf t.2.1).isEmpty then some Frac.half
      else avgPosParents ts.xMap (g.parentsOf t.2.1)) with
  | none => rfl
  | some a => rw [Option.some_bind, h]; rfl

theorem passEntry_some_snd (g : PGraph) (ts : TidyState) (t : Nat × Nat × Int)
    (y : (Frac × Frac × Nat) × Nat) (h : passEntry g ts t = some y) :
    y.2 = t.2.1 := by
  unfold passEntry at h
  cases ha : (if (g.parentsOf t.2.1).isEmpty then some Frac.half
      else avgPosParents ts.xMap (g.parentsOf t.2.1)) with
  | none => rw [ha] at h; cases h
  | some a =>
    rw [ha, Option.some_bind] at h
    cases hp : ts.posMap t.2.1 with
    | none => rw [hp] at h; cases h
    | some pp =>
      rw [hp, Option.some_bind] at h
      obtain rfl : ((a, pp.2, t.1), t.2.1) = y := by injection h
      rfl

/-- Rewrites `tidyPass` with `passEntry` (the do-blocks coincide). -/
theorem tidyPass_eq (g : PGraph) (order : List Nat) (st : Nat → Option Int)
    (maxS s : Int) (ts : TidyState) :
    tidyPass g order st maxS s ts =
      (optMapM (fun e => (st e.2).bind fun v => some (e.1, e.2, v))
          (pyEnum 0 order)).bind fun withStrata =>
        (optMapM (passEntry g ts) (withStrata.filter (fun t => t.2.2 = s))).bind
          fun snodes =>
            some (assignPositions (sortSNodes snodes)
              (Frac.div (Frac.add (Frac.ofInt s) Frac.half)
                (Frac.ofInt (maxS + 1))) ts) := rfl

theorem assignPositions_preserve (y : Frac) (m : Nat) :
    ∀ (sorted l : List ((Frac × Frac × Nat) × Nat)) (k : Nat) (ts : TidyState),
      (∀ e ∈ pyEnumS k l, e.2.2 ≠ m) →
      ((pyEnumS k l).foldl (fun acc e =>
        { posMap := Function.update acc.posMap e.2.2
            (some (y, Frac.div (Frac.add (Frac.ofInt (e.1 : Int)) Frac.half)
              (Frac.ofInt (sorted.length : Int)))),
          xMap := Function.update acc.xMap e.2.2
            (some (Frac.div (Frac.add (Frac.ofInt (e.1 : Int)) Frac.half)
              (Frac.ofInt (sorted.length : Int)))) } : TidyState → _ → TidyState) ts).posMap m =
        ts.posMap m := by
  intro sorted l
  induction l with
  | nil => intro k ts _; rfl
  | cons a rest ih =>
    intro k ts hne
    simp only [pyEnumS, List.foldl_cons]
    rw [ih (k + 1) _ (fun e he => hne e (List.mem_cons_of_mem _ he))]
    have hka : ((k, a) : Nat × (Frac × Frac × Nat) × Nat).2.2 ≠ m :=
      hne (k, a) (List.mem_cons_self _ _)
    exact Function.update_noteq (Ne.symm hka) _ _

/-- When the node with the unset position sits in the stratum being
placed, its `position[1]` read fails and the whole pass raises. -/
theorem tidyPass_fails (g : PGraph) (order : List Nat) (st : Nat → Option Int)
    (maxS : Int) (ts : TidyState) (n0 : Nat) (s0 : Int)
    (hsome : ∀ m ∈ order, (st m).isSome)
    (hn0 : n0 ∈ order) (hst : st n0 = some s0)
    (hpos : ts.posMap n0 = none) :
    tidyPass g order st maxS s0 ts = none := by
  rw [tidyPass_eq]
  have hse : ∀ e ∈ pyEnum 0 order,
      ((fun e => (st e.2).bind fun v => some (e.1, e.2, v)) e).isSome := by
    intro e he
    obtain ⟨v, hv⟩ :=
      Option.isSome_iff_exists.mp (hsome e.2 (pyEnum_mem order 0 e he))
    simp [hv]
  obtain ⟨ws, hws, _, hfwd, _⟩ := optMapM_some _ (pyEnum 0 order) hse
  rw [hws, Option.some_bind]
  obtain ⟨i, hie⟩ := pyEnum_mem_of_mem order 0 n0 hn0
  obtain ⟨t, hft, htw⟩ := hfwd (i, n0) hie
  have hft' : (st n0).bind (fun v => some (i, n0, v)) = some t := hft
  rw [hst, Option.some_bind] at hft'
  have hteq : t = (i, n0, s0) := (Option.some.inj hft').symm
  subst hteq
  have htsel : ((i, n0, s0) : Nat × Nat × Int) ∈
      ws.filter (fun t => t.2.2 = s0) :=
    List.mem_filter.mpr ⟨htw, by simp⟩
  rw [optMapM_none (passEntry g ts) _ _ htsel (passEntry_none g ts _ hpos)]
  rfl

/-- A pass over any other stratum never writes the position of a node
of stratum `s0`. -/
theorem tidyPass_preserves (g : PGraph) (order : List Nat)
    (st : Nat → Option Int) (maxS s : Int) (ts ts' : TidyState)
    (n0 : Nat) (s0 : Int)
    (hst : st n0 = some s0) (hne : s ≠ s0)
    (hrun : tidyPass g order st maxS s ts = some ts')
    (hpos : ts.posMap n0 = none) :
    ts'.posMap n0 = none := by
  rw [tidyPass_eq] at hrun
  cases hws : optMapM (fun e => (st e.2).bind fun v => some (e.1, e.2, v))
      (pyEnum 0 order) with
  | none => rw [hws] at hrun; cases hrun
  | some ws =>
    rw [hws, Option.some_bind] at hrun
    cases hsn : optMapM (passEntry g ts) (ws.filter (fun t => t.2.2 = s)) with
    | none => rw [hsn] at hrun; cases hrun
    | some snodes =>
      rw [hsn, Option.some_bind] at hrun
      have hfin := Option.some.inj hrun
      have hno : ∀ e ∈ pyEnumS 0 (sortSNodes snodes), e.2.2 ≠ n0 := by
        intro e he heq
        have hmem2 : e.2 ∈ snodes :=
          sortSNodes_mem e.2 snodes (pyEnumS_mem (sortSNodes snodes) 0 e he)
        obtain ⟨t, htf, hptf⟩ := optMapM_mem_rev (passEntry g ts) _ _ hsn e.2 hmem2
        have hid : e.2.2 = t.2.1 := passEntry_some_snd g ts t e.2 hptf
        have htfil := List.mem_filter.mp htf
        obtain ⟨x, hx, hfx⟩ := optMapM_mem_rev _ _ _ hws t htfil.1
        have hfx' : (st x.2).bind (fun v => some (x.1, x.2, v)) = some t := hfx
        cases hsx : st x.2 with
        | none => rw [hsx] at hfx'; cases hfx'
        | some v =>
          rw [hsx, Option.some_bind] at hfx'
          have hteq : t = (x.1, x.2, v) := (Option.some.inj hfx').symm
          subst hteq
          have hxn0 : x.2 = n0 := hid.symm.trans heq
          have hv_s : v = s := of_decide_eq_true htfil.2
          rw [hxn0, hst] at hsx
          have : s0 = v := Option.some.inj hsx
          exact hne (by rw [hv_s] at this; exact this.symm)
      have hpre := assignPositions_preserve
        (Frac.div (Frac.add (Frac.ofInt s) Frac.half) (Frac.ofInt (maxS + 1)))
        n0 (sortSNodes snodes) (sortSNodes snodes) 0 ts hno
      rw [← hfin]
      exact hpre.trans hpos

/-- Claim C10: `tidy` reads every node's current `position` (the
`node.position[1]` tie-breaker of the stratum sort), so on any
well-formed graph containing a node whose position is unset it raises
(`None[1]` is a `TypeError`) instead of assigning positions. -/
theorem C10_tidy_needs_positions (g : PGraph) (n0 : Nat)
    (hnd : g.nodes.Nodup) (hpc : parentsClosed g)
    (hcc : ∀ n ∈ g.nodes, ∀ c ∈ g.childrenOf n, c ∈ g.nodes)
    (hsym : ∀ a b, a ∈ g.parentsOf b ↔ b ∈ g.childrenOf a)
    (hacy : Acyclic g)
    (hn0 : n0 ∈ g.nodes) (hpos : g.pos n0 = none) :
    tidy g = none := by
  obtain ⟨hperm, hord⟩ := traverseNodes_spec g hnd hpc hacy
  set order := traverseNodes g with horder
  have hordnd : order.Nodup := hperm.nodup_iff.mpr hnd
  have hmemord : ∀ m, m ∈ order ↔ m ∈ g.nodes := fun m => hperm.mem_iff
  have hn0o : n0 ∈ order := (hmemord n0).mpr hn0
  obtain ⟨st0, hinit, huntouched, hstable, hnn, hok⟩ :=
    tidyInitStrata_spec g order (fun _ => none) hordnd (fun _ _ => rfl)
      (fun a b n heq p hp => Or.inl (hord a b n heq p hp))
      (fun m v h => by cases h)
  have hsome0 : ∀ m ∈ order, (st0 m).isSome := by
    intro m hm
    obtain ⟨v, hv, _⟩ := hok m hm
    simp [hv]
  have hccord : ∀ n ∈ order, ∀ c ∈ g.childrenOf n, c ∈ order := by
    intro n hn c hc
    exact (hmemord c).mpr (hcc n ((hmemord n).mp hn) c hc)
  obtain ⟨st1, hshuf, hsome1, hgrow⟩ :=
    tidyShuffle_spec g order st0 hsym hacy hccord hordnd hord hsome0 hok
      order.reverse [] st0 rfl (fun _ _ => rfl) (fun m => Iff.rfl)
      (fun m v w hv hw => by rw [hv] at hw; exact le_of_eq (Option.some.inj hw))
  have hstrata : tidyStrata g = some st1 := by
    show (tidyInitStrata g order (fun _ => none)).bind
      (fun s => tidyShuffle g order.reverse s) = some st1
    rw [hinit, Option.some_bind, hshuf]
  obtain ⟨v0, hv0, hv0nn, _⟩ := hok n0 hn0o
  have h1some : (st1 n0).isSome := (hsome1 n0).mpr (by simp [hv0])
  obtain ⟨s0, hs0⟩ := Option.isSome_iff_exists.mp h1some
  have hs0nn : 0 ≤ s0 := le_trans hv0nn (hgrow n0 v0 s0 hv0 hs0)
  have hsome1' : ∀ m ∈ order, (st1 m).isSome :=
    fun m hm => (hsome1 m).mpr (hsome0 m hm)
  obtain ⟨vs, hvs, _, hfwd2, _⟩ := optMapM_some st1 order hsome1'
  obtain ⟨v', hv', hv'mem⟩ := hfwd2 n0 hn0o
  have hv's0 : v' = s0 := by rw [hs0] at hv'; exact (Option.some.inj hv').symm
  have hs0mem : s0 ∈ vs := hv's0 ▸ hv'mem
  have hvs_ne : vs ≠ [] := by
    intro h
    rw [h] at hs0mem
    cases hs0mem
  obtain ⟨maxS, hmaxS⟩ := Option.isSome_iff_exists.mp (intMax?_isSome vs hvs_ne)
  obtain ⟨_, hmax_ub⟩ := intMax?_spec vs maxS hmaxS
  have hs0le : s0 ≤ maxS := hmax_ub s0 hs0mem
  have hmaxstr : tidyMaxStratum order st1 = some maxS := by
    unfold tidyMaxStratum
    rw [hvs]
    exact hmaxS
  have hmem_passes : s0 ∈ (List.range (maxS + 1).toNat).map
      (fun k : Nat => (k : Int)) := by
    simp only [List.mem_map, List.mem_range]
    exact ⟨s0.toNat, by omega, by omega⟩
  have habort : ((List.range (maxS + 1).toNat).map (fun k : Nat => (k : Int))).foldlM
      (fun ts s => tidyPass g order st1 maxS s ts)
      { posMap := g.pos, xMap := fun _ => none } = none :=
    foldlM_abort _ (fun ts => ts.posMap n0 = none) s0 _ _ hmem_passes hpos
      (fun ts i ts' hP hi hsome =>
        tidyPass_preserves g order st1 maxS i ts ts' n0 s0 hs0 hi hsome hP)
      (fun ts hP => tidyPass_fails g order st1 maxS ts n0 s0 hsome1' hn0o hs0 hP)
  show (tidyStrata g).bind (fun st =>
    (tidyMaxStratum order st).bind (fun maxS' =>
      (((List.range (maxS' + 1).toNat).map (fun k : Nat => (k : Int))).foldlM
        (fun ts s => tidyPass g order st maxS' s ts)
        { posMap := g.pos, xMap := fun _ => none }).bind
        (fun final => some final.posMap))) = none
  rw [hstrata, Option.some_bind, hmaxstr, Option.some_bind, habort]
  rfl

theorem C10_tidy_needs_positions_witness :
    (0 : Nat) ∈ gSingle.nodes ∧ gSingle.pos 0 = none ∧ tidy gSingle = none :=
  ⟨by decide, rfl, C10_tidy_needs_positions gSingle 0 (by decide)
    (by unfold parentsClosed; decide) (by decide)
    (by intro a b; simp [gSingle])
    (acyclic_of_rank gSingle (fun _ => 0) (by intro b a ha; simp [gSingle] at ha))
    (by decide) rfl⟩

end CountESS
